import Mathlib

/-!
Window chunking, window consumption and k-mer profiles of dnaglider.

A shallow embedding of `pkg/windows.go`, of `FastaToKmers` of `pkg/io.go`, and
of the k-mer profile methods that `pkg/kmers_test.go` exercises.

* Go `int` values are modelled by `Int`, and every sum, difference and product
  the code computes on them goes through `wrap`, the wrap-around of the 64-bit
  `int`; lengths of slices are modelled by `Nat`. Memory is not bounded.
* The channels are modelled by lists: a stage is a function from the list of
  items it receives, in order, to the list of items it sends, in order.
* Loops carry a `fuel` counter that bounds the number of iterations of the
  loop body; a run that would need more iterations ends in `Outcome.outOfFuel`.
* A run-time panic (`make` with a negative capacity, division by zero, a call
  through a nil function value, an index out of range) ends in `Outcome.panic`,
  a fatal exit through `checkError` in `Outcome.fatal`. A run that fails has no
  value; the chunks `ChunkGenome` had put on its channel before are given by
  `ChunkGenome.recordSent`.
-/

namespace Dnaglider

/-- Result of running a piece of the program. -/
inductive Outcome (α : Type) where
  | ok (val : α)
  | panic
  | fatal
  | outOfFuel
deriving DecidableEq, Repr

/-- Sequencing of two runs: the second one starts from the value of the first. -/
def Outcome.bind {α β : Type} (x : Outcome α) (f : α → Outcome β) : Outcome β :=
  match x with
  | .ok a => f a
  | .panic => .panic
  | .fatal => .fatal
  | .outOfFuel => .outOfFuel

/-- A `fastx.Record`: identifier and bases. -/
structure Record where
  ID : String
  Seq : List Char
deriving DecidableEq, Repr

/-- The `Chunk` struct of `windows.go`. -/
structure Chunk where
  ID : String
  BpStart : Int
  BpEnd : Int
  wSize : Int
  wStride : Int
  Seq : List Char
  Starts : List Int
deriving DecidableEq, Repr

/-- The `ChunkResult` struct of `windows.go`. -/
structure ChunkResult where
  Header : List String
  Data : List (List String)
deriving DecidableEq, Repr

/-- The library call `seq.SubSeq(start, end)` on bases, at its boundary: the
bases at the 1-based inclusive positions `start .. stop`, for `1 ≤ start ≤ stop`.
The library also reads an index 0 or below from the end of the sequence; no
statement below rests on the value of such a call. -/
def SubSeq (s : List Char) (start stop : Int) : List Char :=
  (s.drop (start - 1).toNat).take (stop - start + 1).toNat

/-- The value a Go `int` holds for the arithmetic result `x`: the wrap-around of
64-bit two's complement. -/
def wrap (x : Int) : Int :=
  (x + 2 ^ 63) % 2 ^ 64 - 2 ^ 63

/-- The function `MinInt` of `windows.go`. -/
def MinInt (x y : Int) : Int :=
  if x < y then x else y

/-- The `for start <= end` loop of `MakeRange`; `arr` is the slice built so far. -/
def MakeRange.loop (stop step : Int) : Nat → Int → List Int → Outcome (List Int)
  | 0, start, arr => if start ≤ stop then .outOfFuel else .ok arr
  | fuel + 1, start, arr =>
    if start ≤ stop then MakeRange.loop stop step fuel (wrap (start + step)) (arr ++ [start])
    else .ok arr

/-- The function `MakeRange` of `windows.go`. The capacity `1+(end-start)/step`
handed to `make` uses Go's truncating division; `make` panics on a negative
capacity and the division panics on `step = 0`. -/
def MakeRange (fuel : Nat) (start stop step : Int) : Outcome (List Int) :=
  if step = 0 then .panic
  else if wrap (1 + wrap ((wrap (stop - start)).tdiv step)) < 0 then .panic
  else MakeRange.loop stop step fuel start []

/-- The function `Build2dSlice` of `windows.go`: `rows` rows of `cols` empty
strings. -/
def Build2dSlice (rows cols : Nat) : List (List String) :=
  List.replicate rows (List.replicate cols "")

/-- The difference `seqLen - winSize` of the loop guard of `ChunkGenome`. The
value `seqLen` is the length of a slice, between 0 and `2^63 - 1`: for an `int`
`winSize ≥ 0` the difference stays in the range of `int`, and it can wrap only
for a negative `winSize`. -/
def guardBound (seqLen winSize : Int) : Int :=
  if 0 ≤ winSize then seqLen - winSize else wrap (seqLen - winSize)

/-- The inner loop `for bpStart < (seqLen - winSize)` of `ChunkGenome` for one
record: the chunks it sends, in order. `gas` is the fuel handed to `MakeRange`. -/
def ChunkGenome.loop (gas : Nat) (rec : Record) (winSize winStride chunkLen seqLen : Int) :
    Nat → Int → Outcome (List Chunk)
  | 0, bpStart => if bpStart < guardBound seqLen winSize then .outOfFuel else .ok []
  | fuel + 1, bpStart =>
    if bpStart < guardBound seqLen winSize then
      let bpEnd := MinInt (wrap (wrap (bpStart + chunkLen) - 1)) seqLen
      (MakeRange gas 0 (wrap (wrap (bpEnd - bpStart) - wrap (winSize - 1))) winStride).bind
        fun starts =>
        let chunk : Chunk :=
          { ID := rec.ID
            BpStart := bpStart
            BpEnd := bpEnd
            Starts := starts
            wSize := winSize
            wStride := winStride
            Seq := SubSeq rec.Seq bpStart bpEnd }
        (ChunkGenome.loop gas rec winSize winStride chunkLen seqLen fuel (wrap (bpEnd + 1))).bind
          fun rest => .ok (chunk :: rest)
    else .ok []

/-- The chunks the inner loop of `ChunkGenome` has put on the channel after at
most `n` runs of its body: each chunk is sent as soon as it is built, also in a
run that never ends or fails later. -/
def ChunkGenome.sent (gas : Nat) (rec : Record) (winSize winStride chunkLen seqLen : Int) :
    Nat → Int → List Chunk
  | 0, _ => []
  | n + 1, bpStart =>
    if bpStart < guardBound seqLen winSize then
      let bpEnd := MinInt (wrap (wrap (bpStart + chunkLen) - 1)) seqLen
      match MakeRange gas 0 (wrap (wrap (bpEnd - bpStart) - wrap (winSize - 1))) winStride with
      | .ok starts =>
        { ID := rec.ID
          BpStart := bpStart
          BpEnd := bpEnd
          Starts := starts
          wSize := winSize
          wStride := winStride
          Seq := SubSeq rec.Seq bpStart bpEnd } ::
          ChunkGenome.sent gas rec winSize winStride chunkLen seqLen n (wrap (bpEnd + 1))
      | _ => []
    else []

/-- The body of `for rec := range records` of `ChunkGenome` for one record. -/
def ChunkGenome.record (fuel : Nat) (rec : Record) (winSize winStride chunkSize : Int) :
    Outcome (List Chunk) :=
  let chunkLen := wrap (winSize + wrap (wrap (chunkSize - 1) * winStride))
  let seqLen : Int := rec.Seq.length
  ChunkGenome.loop fuel rec winSize winStride chunkLen seqLen fuel 1

/-- The chunks `ChunkGenome` has sent for one record after at most `n` runs of
the body of its inner loop. -/
def ChunkGenome.recordSent (n : Nat) (rec : Record) (winSize winStride chunkSize : Int) :
    List Chunk :=
  ChunkGenome.sent n rec winSize winStride
    (wrap (winSize + wrap (wrap (chunkSize - 1) * winStride))) rec.Seq.length n 1

/-- The function `ChunkGenome` of `windows.go`: the chunks sent on the output
channel for the records received, in order. -/
def ChunkGenome (fuel : Nat) (records : List Record) (winSize winStride chunkSize : Int) :
    Outcome (List Chunk) :=
  match records with
  | [] => .ok []
  | rec :: rest =>
    (ChunkGenome.record fuel rec winSize winStride chunkSize).bind fun cs =>
      (ChunkGenome fuel rest winSize winStride chunkSize).bind fun cs2 => .ok (cs ++ cs2)

/-- The names `windows.go` uses and does not define: the metric registry
`fieldDispatcher` (a Go map from name to function; `none` stands for an absent
key), the reference profiles `refProfile` (a Go map from k to profile, read
with the zero value for an absent key), `SeqKmerDiv`, and the `%f` formatting
of a `float64`. -/
structure Externals where
  Stat : Type
  KmerProfile : Type
  fieldDispatcher : String → Option (List Char → Stat)
  refProfile : Int → KmerProfile
  SeqKmerDiv : List Char → KmerProfile → String → Stat
  fmtF : Stat → String

/-- The regular expression `([0-9]+)MER` matched at the head of `s`: the text
captured by the group when it matches there. The digit run is greedy and `M`
is no digit, so the group is the whole digit run at the head. -/
def kmerRegex.matchHere (s : List Char) : Option (List Char) :=
  match s.dropWhile Char.isDigit with
  | 'M' :: 'E' :: 'R' :: _ =>
    if s.takeWhile Char.isDigit = [] then none else some (s.takeWhile Char.isDigit)
  | _ => none

/-- The call `kmerRegex.FindStringSubmatch(field)[1]`, which is `none` exactly
when `kmerRegex.Match` is false: the regular expression carries no anchor, so
the leftmost position of `field` where it matches is taken. -/
def kmerRegex.FindStringSubmatch : List Char → Option (List Char)
  | [] => none
  | c :: cs =>
    match kmerRegex.matchHere (c :: cs) with
    | some ds => some ds
    | none => kmerRegex.FindStringSubmatch cs

/-- Decimal value of a run of digits. -/
def digitsValue (ds : List Char) : Nat :=
  ds.foldl (fun acc c => 10 * acc + (c.toNat - 48)) 0

/-- The call `strconv.Atoi` on a run of decimal digits: an error (`none`) when
the value does not fit the 64-bit `int`. -/
def Atoi (ds : List Char) : Option Int :=
  if digitsValue ds < 2 ^ 63 then some (digitsValue ds : Int) else none

/-- Modelled from the spec: the helper `checkError`, which `windows.go` calls
on the error of `strconv.Atoi` and does not define. Following the design note
"fatal process termination on internal error, no recoverable error values", it
ends the run when there is an error and lets it go on otherwise. -/
def checkError {α : Type} (r : Option α) : Outcome α :=
  match r with
  | some a => .ok a
  | none => .fatal

/-- The loop `for idx, field := range metrics` of `ConsumeChunks`, started at
index `idx`: the maps `metricCols` and `kmerCols`, as lists of (column, value)
in increasing column order. -/
def ConsumeChunks.classify : Nat → List String →
    Outcome (List (Nat × String) × List (Nat × Int))
  | _, [] => .ok ([], [])
  | idx, field :: rest =>
    match kmerRegex.FindStringSubmatch field.toList with
    | some ds =>
      (checkError (Atoi ds)).bind fun k =>
        (ConsumeChunks.classify (idx + 1) rest).bind fun cols =>
          .ok (cols.1, (idx + 3, k) :: cols.2)
    | none =>
      (ConsumeChunks.classify (idx + 1) rest).bind fun cols =>
        .ok ((idx + 3, field) :: cols.1, cols.2)

/-- The loop `for colNum, field := range metricCols` for one window. A name
absent from `fieldDispatcher` yields a nil function, whose call panics. Go
visits the keys of a map in no fixed order; the columns are distinct and every
failure is the same panic, so the order does not show in the result. -/
def ConsumeChunks.metricLoop (E : Externals) (winSeq : List Char) :
    List (Nat × String) → List String → Outcome (List String)
  | [], row => .ok row
  | (colNum, field) :: rest, row =>
    match E.fieldDispatcher field with
    | some f => ConsumeChunks.metricLoop E winSeq rest (row.set colNum (E.fmtF (f winSeq)))
    | none => .panic

/-- The loop `for colNum, k := range kmerCols` for one window. -/
def ConsumeChunks.kmerLoop (E : Externals) (distMetric : String) (winSeq : List Char) :
    List (Nat × Int) → List String → List String
  | [], row => row
  | (colNum, k) :: rest, row =>
    ConsumeChunks.kmerLoop E distMetric winSeq rest
      (row.set colNum (E.fmtF (E.SeqKmerDiv winSeq (E.refProfile k) distMetric)))

/-- The body of `for winID, start := range chunk.Starts`: fills the row
`results.Data[winID]`. -/
def ConsumeChunks.window (E : Externals) (metricCols : List (Nat × String))
    (kmerCols : List (Nat × Int)) (distMetric : String) (chunk : Chunk)
    (row : List String) (start : Int) : Outcome (List String) :=
  let stop := MinInt (wrap (wrap (wrap (chunk.BpStart + start) + chunk.wSize) - 1)) chunk.BpEnd
  let row := row.set 0 chunk.ID
  let row := row.set 1 (toString (wrap (chunk.BpStart + start)))
  let row := row.set 2 (toString stop)
  let winSeq := SubSeq chunk.Seq (wrap (start + 1)) (wrap (start + chunk.wSize))
  (ConsumeChunks.metricLoop E winSeq metricCols row).bind fun row =>
    .ok (ConsumeChunks.kmerLoop E distMetric winSeq kmerCols row)

/-- The loop `for winID, start := range chunk.Starts` over the rows of
`results.Data` from `winID` on. -/
def ConsumeChunks.windows (E : Externals) (metricCols : List (Nat × String))
    (kmerCols : List (Nat × Int)) (distMetric : String) (chunk : Chunk) :
    List (List String) → List Int → Outcome (List (List String))
  | data, [] => .ok data
  | [], _ :: _ => .panic
  | row :: data, start :: starts =>
    (ConsumeChunks.window E metricCols kmerCols distMetric chunk row start).bind fun r =>
      (ConsumeChunks.windows E metricCols kmerCols distMetric chunk data starts).bind fun d =>
        .ok (r :: d)

/-- The body of `for chunk := range chunks` of `ConsumeChunks`: the table sent
for one chunk. -/
def ConsumeChunks.chunk (E : Externals) (header : List String) (nFeatures : Nat)
    (metricCols : List (Nat × String)) (kmerCols : List (Nat × Int)) (distMetric : String)
    (chunk : Chunk) : Outcome ChunkResult :=
  let nWindows := chunk.Starts.length
  (ConsumeChunks.windows E metricCols kmerCols distMetric chunk
      (Build2dSlice nWindows nFeatures) chunk.Starts).bind fun data =>
    .ok { Header := header, Data := data }

/-- The loop `for chunk := range chunks` of `ConsumeChunks`. -/
def ConsumeChunks.loop (E : Externals) (header : List String) (nFeatures : Nat)
    (metricCols : List (Nat × String)) (kmerCols : List (Nat × Int)) (distMetric : String) :
    List Chunk → Outcome (List ChunkResult)
  | [] => .ok []
  | chunk :: rest =>
    (ConsumeChunks.chunk E header nFeatures metricCols kmerCols distMetric chunk).bind fun t =>
      (ConsumeChunks.loop E header nFeatures metricCols kmerCols distMetric rest).bind fun ts =>
        .ok (t :: ts)

/-- The function `ConsumeChunks` of `windows.go`: the tables sent on the output
channel for the chunks received, in order; `refProfile` is `E.refProfile`. -/
def ConsumeChunks (E : Externals) (chunks : List Chunk) (metrics : List String)
    (distMetric : String) : Outcome (List ChunkResult) :=
  let nFeatures := 3 + metrics.length
  let header := ["chrom", "start", "end"] ++ metrics
  (ConsumeChunks.classify 0 metrics).bind fun cols =>
    ConsumeChunks.loop E header nFeatures cols.1 cols.2 distMetric chunks

/-- The sizes for which no sum or product of `ChunkGenome` leaves the range of
`int`: window size `ws`, stride `st`, chunk length `cl` and sequence length `L`
with `st` and `L + cl` below `2^63`. -/
structure Fits (ws st cl L : Int) : Prop where
  hw : 1 ≤ ws
  hs : 1 ≤ st
  hcl : ws ≤ cl
  hL : L + cl < 2 ^ 63
  hst : cl = ws ∨ st ≤ cl
  hst2 : st < 2 ^ 63

/-- The chunks the inner loop of `ChunkGenome` sends when it is entered with
`bpStart = b` and no sum wraps, read off the loop body. -/
inductive Carved (gas : Nat) (rec : Record) (ws st cl L : Int) : Int → List Chunk → Prop
  | stop (b : Int) (h : ¬ b < L - ws) : Carved gas rec ws st cl L b []
  | step (b : Int) (starts : List Int) (rest : List Chunk) (hlt : b < L - ws)
      (hr : MakeRange gas 0 (MinInt (b + cl - 1) L - b - (ws - 1)) st = .ok starts)
      (hrest : Carved gas rec ws st cl L (MinInt (b + cl - 1) L + 1) rest) :
      Carved gas rec ws st cl L b
        ({ ID := rec.ID
           BpStart := b
           BpEnd := MinInt (b + cl - 1) L
           Starts := starts
           wSize := ws
           wStride := st
           Seq := SubSeq rec.Seq b (MinInt (b + cl - 1) L) } :: rest)

/-- A registry with the single metric `GC`, together with a constant k-mer
divergence. -/
def sampleExternals : Externals where
  Stat := Nat
  KmerProfile := Unit
  fieldDispatcher := fun name => if name = "GC" then some (fun s => s.length) else none
  refProfile := fun _ => ()
  SeqKmerDiv := fun _ _ _ => 0
  fmtF := fun n => toString n

/-- A requested name that `ConsumeChunks` cannot resolve: `kmerRegex` does not
match it and `fieldDispatcher` has no entry for it. -/
def Unresolved (E : Externals) (m : String) : Prop :=
  kmerRegex.FindStringSubmatch m.toList = none ∧ E.fieldDispatcher m = none

/-- A requested name that `kmerRegex` matches with digits that `Atoi` refuses. -/
def Overflows (m : String) : Prop :=
  ∃ ds, kmerRegex.FindStringSubmatch m.toList = some ds ∧ Atoi ds = none

/-- The text `name` is `pre`, then a non-empty run `ds` of decimal digits, then
the letters `MER`, then `post`. -/
def DigitsMER (name pre ds post : List Char) : Prop :=
  name = pre ++ ds ++ 'M' :: 'E' :: 'R' :: post ∧ ds ≠ [] ∧ ∀ c ∈ ds, c.isDigit = true

/-- A chunk of 8 bases holding two windows of 4 bases. -/
def sampleChunk : Chunk :=
  { ID := "chr1"
    BpStart := 1
    BpEnd := 8
    wSize := 4
    wStride := 4
    Seq := ['A', 'C', 'G', 'T', 'A', 'C', 'G', 'T']
    Starts := [0, 4] }

/-- Total number of rows of the tables of a run. -/
def totalRows : Outcome (List ChunkResult) → Option Nat
  | .ok tables => some (tables.map fun t => t.Data.length).sum
  | _ => none

/-- The genomic starts `BpStart + s` of the windows of a list of chunks, in order. -/
def windowStarts (chunks : List Chunk) : List Int :=
  (chunks.map fun c => c.Starts.map fun s => c.BpStart + s).flatten

/-- A record of `n` bases `A`. -/
def polyA (n : Nat) : Record := { ID := "chr1", Seq := List.replicate n 'A' }

/-! ## The k-mer profiles

The file `kmers.go` is called by `io.go`, `windows.go` and `kmers_test.go` and is
not among the sources, so the profile type and its methods follow the words of
the specification. The `float64` values of a profile are taken as exact
rationals, the `uint64` codes as natural numbers, and a sequence as a list of
the four bases.
-/

/-- A base of a DNA sequence. -/
inductive Base where
  | A
  | C
  | G
  | T
deriving DecidableEq, Repr

/-- The two bits the library `unikmer` gives a base. -/
def Base.code : Base → Nat
  | .A => 0
  | .C => 1
  | .G => 2
  | .T => 3

/-- The complementary base. -/
def Base.complement : Base → Base
  | .A => .T
  | .C => .G
  | .G => .C
  | .T => .A

/-- The library call `unikmer.Encode` at its boundary: two bits per base, the
first base in the highest bits. -/
def Encode (kmer : List Base) : Nat :=
  kmer.foldl (fun acc b => 4 * acc + b.code) 0

/-- The reverse complement of a k-mer. -/
def RevComp (kmer : List Base) : List Base :=
  (kmer.map Base.complement).reverse

/-- Modelled from the spec: the canonical key of a k-mer, "the numerically
smaller of the two codes" of the k-mer and of its reverse complement (part of
the absent `GetSeqKmers`). -/
def canonicalKey (kmer : List Base) : Nat :=
  min (Encode kmer) (Encode (RevComp kmer))

/-- Modelled from the spec: the type `KmerProfile` of the absent `kmers.go`, "k
(fixed word length), and a mapping from canonical-k-mer code to accumulated
value". The Go map is a list of (key, value) read at the first entry of a key. -/
structure KmerProfile where
  K : Nat
  Profile : List (Nat × ℚ)
deriving DecidableEq

/-- Modelled from the spec: the absent `NewKmerProfile`, a profile "created
empty for a given k". -/
def NewKmerProfile (k : Nat) : KmerProfile :=
  { K := k, Profile := [] }

/-- The keys of the map of a profile. -/
def KmerProfile.keys (p : KmerProfile) : List Nat :=
  p.Profile.map Prod.fst

/-- The read `p.Profile[key]` of a Go map: the zero value for an absent key. -/
def KmerProfile.get (p : KmerProfile) (key : Nat) : ℚ :=
  (p.Profile.lookup key).getD 0

/-- The update `Profile[key]++` of a Go map. -/
def incrKey : List (Nat × ℚ) → Nat → List (Nat × ℚ)
  | [], key => [(key, 1)]
  | (k, v) :: rest, key =>
    if k = key then (k, v + 1) :: rest else (k, v) :: incrKey rest key

/-- Modelled from the spec: the absent method `GetSeqKmers`, "for every offset
i in [0, len(S)-k], extract the length-k substring, encode it, and encode its
reverse complement; select the numerically smaller of the two codes as the
canonical key. Increment that key's accumulated value by 1. If len(S) < k, no
k-mers are counted and the profile is unchanged." -/
def GetSeqKmers (p : KmerProfile) (S : List Base) : KmerProfile :=
  if S.length < p.K then p
  else
    { p with
      Profile := (List.range (S.length - p.K + 1)).foldl
        (fun prof i => incrKey prof (canonicalKey ((S.drop i).take p.K))) p.Profile }

/-- Modelled from the spec: the absent method `CountsToFreqs`, "divide every
accumulated value by the sum of all accumulated values at the time of the
call. No-op if the total is zero." -/
def CountsToFreqs (p : KmerProfile) : KmerProfile :=
  if (p.Profile.map Prod.snd).sum = 0 then p
  else { p with Profile := p.Profile.map fun kv => (kv.1, kv.2 / (p.Profile.map Prod.snd).sum) }

/-- Modelled from the spec: the absent method `KmerDist`, "over the union of
keys present in either profile (absent keys treated as frequency 0), sum the
absolute difference per key, then halve the sum"; "mismatched k is a usage
error" and ends the run. -/
def KmerDist (p q : KmerProfile) : Outcome ℚ :=
  if p.K = q.K then
    .ok ((((p.keys ++ q.keys).dedup.map fun key => |p.get key - q.get key|).sum) / 2)
  else .fatal

/-- The function `FastaToKmers` of `io.go` on the sequences of the records the
reader yields: the counts of all records, then one normalization. -/
def FastaToKmers (records : List (List Base)) (k : Nat) : KmerProfile :=
  CountsToFreqs (records.foldl GetSeqKmers { K := k, Profile := [] })

/-- The normalized profile of one sequence. -/
def seqProfile (k : Nat) (S : List Base) : KmerProfile :=
  CountsToFreqs (GetSeqKmers (NewKmerProfile k) S)

/-! ## The output of `MakeRange` -/

theorem Outcome.bind_eq_ok {α β : Type} {x : Outcome α} {f : α → Outcome β} {b : β}
    (h : x.bind f = .ok b) : ∃ a, x = .ok a ∧ f a = .ok b := by
  cases x with
  | ok a => exact ⟨a, rfl, h⟩
  | panic => cases h
  | fatal => cases h
  | outOfFuel => cases h

theorem wrap_eq {x : Int} (h1 : -2 ^ 63 ≤ x) (h2 : x < 2 ^ 63) : wrap x = x := by
  unfold wrap
  omega

theorem MakeRange.loop_mem (stop step : Int) (hstep : 0 < step) (hhi : stop + step < 2 ^ 63) :
    ∀ (fuel : Nat) (start : Int) (arr l : List Int), -2 ^ 63 ≤ start →
      MakeRange.loop stop step fuel start arr = .ok l →
      ∃ tail, l = arr ++ tail ∧ ∀ x ∈ tail, start ≤ x ∧ x ≤ stop := by
  intro fuel
  induction fuel with
  | zero =>
    intro start arr l _ h
    simp only [MakeRange.loop] at h
    split at h
    · cases h
    · injection h with h
      exact ⟨[], by simp [h], by simp⟩
  | succ n ih =>
    intro start arr l hlo h
    simp only [MakeRange.loop] at h
    split at h
    · next hle =>
      rw [wrap_eq (by omega) (by omega)] at h
      obtain ⟨tail, rfl, ht⟩ := ih _ _ _ (by omega) h
      refine ⟨start :: tail, by simp, ?_⟩
      intro x hx
      rcases List.mem_cons.1 hx with rfl | hx
      · omega
      · have := ht x hx
        omega
    · injection h with h
      exact ⟨[], by simp [h], by simp⟩

theorem MakeRange.loop_terminates (stop step : Int) (hstep : 0 < step)
    (hhi : stop + step < 2 ^ 63) :
    ∀ (fuel : Nat) (start : Int) (arr : List Int), -2 ^ 63 ≤ start →
      (stop - start + 1).toNat ≤ fuel →
      ∃ l, MakeRange.loop stop step fuel start arr = .ok l := by
  intro fuel
  induction fuel with
  | zero =>
    intro start arr _ h
    have hlt : ¬ start ≤ stop := by omega
    exact ⟨arr, by simp [MakeRange.loop, hlt]⟩
  | succ n ih =>
    intro start arr hlo h
    by_cases hle : start ≤ stop
    · obtain ⟨l, hl⟩ := ih (start + step) (arr ++ [start]) (by omega) (by omega)
      exact ⟨l, by simp [MakeRange.loop, hle, wrap_eq (show -2 ^ 63 ≤ start + step by omega)
        (show start + step < 2 ^ 63 by omega), hl]⟩
    · exact ⟨arr, by simp [MakeRange.loop, hle]⟩

theorem MakeRange_mem {fuel : Nat} {start stop step : Int} {l : List Int} (hstep : 0 < step)
    (hlo : -2 ^ 63 ≤ start) (hhi : stop + step < 2 ^ 63)
    (h : MakeRange fuel start stop step = .ok l) : ∀ x ∈ l, start ≤ x ∧ x ≤ stop := by
  unfold MakeRange at h
  split at h
  · cases h
  · split at h
    · cases h
    · obtain ⟨tail, rfl, ht⟩ := MakeRange.loop_mem stop step hstep hhi _ _ _ _ hlo h
      simpa using ht

theorem MakeRange.cap_nonneg {start stop step : Int} (hstep : 0 < step) (hle : start ≤ stop)
    (hdiff : stop - start + 1 < 2 ^ 63) :
    ¬ (wrap (1 + wrap ((wrap (stop - start)).tdiv step)) < 0) := by
  have h1 : wrap (stop - start) = stop - start := wrap_eq (by omega) (by omega)
  have h2 : (stop - start).tdiv step = (stop - start) / step :=
    Int.tdiv_eq_ediv (by omega) (by omega)
  have h3 : 0 ≤ (stop - start) / step := Int.ediv_nonneg (by omega) (by omega)
  have h4 : (stop - start) / step ≤ stop - start := Int.ediv_le_self _ (by omega)
  have h5 : wrap ((stop - start) / step) = (stop - start) / step :=
    wrap_eq (by omega) (by omega)
  have h6 : wrap (1 + (stop - start) / step) = 1 + (stop - start) / step :=
    wrap_eq (by omega) (by omega)
  rw [h1, h2, h5, h6]
  omega

theorem MakeRange_terminates {fuel : Nat} {start stop step : Int} (hstep : 0 < step)
    (hle : start ≤ stop) (hlo : -2 ^ 63 ≤ start) (hhi : stop + step < 2 ^ 63)
    (hdiff : stop - start + 1 < 2 ^ 63) (hfuel : (stop - start + 1).toNat ≤ fuel) :
    ∃ l, MakeRange fuel start stop step = .ok l := by
  have h0 : step ≠ 0 := by omega
  have hcap := MakeRange.cap_nonneg hstep hle hdiff
  obtain ⟨l, hl⟩ := MakeRange.loop_terminates stop step hstep hhi fuel start [] hlo hfuel
  exact ⟨l, by simp only [MakeRange, if_neg h0, if_neg hcap, hl]⟩

/-! ## The chunks of one record -/

/-- A run of the inner loop that returns has sent the chunks it returns. -/
theorem ChunkGenome.sent_of_loop (gas : Nat) (rec : Record) (ws st cl L : Int) :
    ∀ (fuel : Nat) (b : Int) (cs : List Chunk),
      ChunkGenome.loop gas rec ws st cl L fuel b = .ok cs →
      ChunkGenome.sent gas rec ws st cl L fuel b = cs := by
  intro fuel
  induction fuel with
  | zero =>
    intro b cs h
    simp only [ChunkGenome.loop] at h
    split at h
    · cases h
    · injection h with h
  | succ n ih =>
    intro b cs h
    simp only [ChunkGenome.loop] at h
    simp only [ChunkGenome.sent]
    split at h
    · next hlt =>
      rw [if_pos hlt]
      obtain ⟨starts, hs, h⟩ := Outcome.bind_eq_ok h
      obtain ⟨rest, hrest, h⟩ := Outcome.bind_eq_ok h
      injection h with h
      rw [hs, ← h, ih _ _ hrest]
    · next hn =>
      rw [if_neg hn]
      injection h with h

theorem guardBound_eq {L ws : Int} (hw : 0 ≤ ws) : guardBound L ws = L - ws := by
  simp [guardBound, hw]

/-- Within the range of `int` the sums of the loop body do not wrap. -/
theorem ChunkGenome.loop_no_wrap {ws cl L b : Int} (hw : 1 ≤ ws) (hcl : ws ≤ cl)
    (hL : L + cl < 2 ^ 63) (hb : 1 ≤ b) (hlt : b < L - ws) :
    wrap (wrap (b + cl) - 1) = b + cl - 1 ∧
    wrap (wrap (MinInt (b + cl - 1) L - b) - wrap (ws - 1)) =
      MinInt (b + cl - 1) L - b - (ws - 1) ∧
    wrap (MinInt (b + cl - 1) L + 1) = MinInt (b + cl - 1) L + 1 := by
  have hend : b ≤ MinInt (b + cl - 1) L ∧ MinInt (b + cl - 1) L ≤ L := by
    unfold MinInt
    split <;> omega
  have h1 : wrap (b + cl) = b + cl := wrap_eq (by omega) (by omega)
  have h2 : wrap (b + cl - 1) = b + cl - 1 := wrap_eq (by omega) (by omega)
  have h3 : wrap (MinInt (b + cl - 1) L - b) = MinInt (b + cl - 1) L - b :=
    wrap_eq (by omega) (by omega)
  have h4 : wrap (ws - 1) = ws - 1 := wrap_eq (by omega) (by omega)
  have h5 : wrap (MinInt (b + cl - 1) L - b - (ws - 1)) = MinInt (b + cl - 1) L - b - (ws - 1) :=
    wrap_eq (by omega) (by omega)
  have h6 : wrap (MinInt (b + cl - 1) L + 1) = MinInt (b + cl - 1) L + 1 :=
    wrap_eq (by omega) (by omega)
  rw [h1, h2]
  exact ⟨rfl, by rw [h3, h4, h5], h6⟩

theorem ChunkGenome.loop_carved (gas : Nat) (rec : Record) (ws st cl L : Int)
    (hf : Fits ws st cl L) :
    ∀ (fuel : Nat) (b : Int) (cs : List Chunk), 1 ≤ b →
      ChunkGenome.loop gas rec ws st cl L fuel b = .ok cs → Carved gas rec ws st cl L b cs := by
  obtain ⟨hw, hs, hcl, hL, hst, hst2⟩ := hf
  have hg : guardBound L ws = L - ws := guardBound_eq (by omega)
  intro fuel
  induction fuel with
  | zero =>
    intro b cs _ h
    simp only [ChunkGenome.loop, hg] at h
    split at h
    · cases h
    · next hn =>
      injection h with h
      subst h
      exact Carved.stop b hn
  | succ n ih =>
    intro b cs hb h
    simp only [ChunkGenome.loop, hg] at h
    split at h
    · next hlt =>
      obtain ⟨h1, h2, h3⟩ := ChunkGenome.loop_no_wrap hw hcl hL hb hlt
      rw [h1, h2, h3] at h
      obtain ⟨starts, hs, h⟩ := Outcome.bind_eq_ok h
      obtain ⟨rest, hrest, h⟩ := Outcome.bind_eq_ok h
      injection h with h
      subst h
      have hend : b ≤ MinInt (b + cl - 1) L := by
        unfold MinInt
        split <;> omega
      exact Carved.step b starts rest hlt hs (ih _ _ (by omega) hrest)
    · next hn =>
      injection h with h
      subst h
      exact Carved.stop b hn

theorem ChunkGenome.loop_returns (gas : Nat) (rec : Record) (ws st cl L : Int)
    (hf : Fits ws st cl L) (hgas : L.toNat ≤ gas) :
    ∀ (fuel : Nat) (b : Int), 1 ≤ b → (L - b).toNat ≤ fuel →
      ∃ cs, ChunkGenome.loop gas rec ws st cl L fuel b = .ok cs := by
  obtain ⟨hw, hs, hcl, hL, hst, hst2⟩ := hf
  have hg : guardBound L ws = L - ws := guardBound_eq (by omega)
  intro fuel
  induction fuel with
  | zero =>
    intro b _ hf
    have hn : ¬ b < L - ws := by omega
    exact ⟨[], by simp [ChunkGenome.loop, hg, hn]⟩
  | succ n ih =>
    intro b hb hf
    by_cases hlt : b < L - ws
    · have hend : b ≤ MinInt (b + cl - 1) L ∧ MinInt (b + cl - 1) L ≤ L ∧
          0 ≤ MinInt (b + cl - 1) L - b - (ws - 1) ∧
          MinInt (b + cl - 1) L - b - (ws - 1) ≤ cl - ws := by
        unfold MinInt
        split <;> omega
      obtain ⟨h1, h2, h3⟩ := ChunkGenome.loop_no_wrap hw hcl hL hb hlt
      obtain ⟨starts, hstarts⟩ := @MakeRange_terminates gas 0
        (MinInt (b + cl - 1) L - b - (ws - 1)) st (by omega) hend.2.2.1 (by omega)
        (by rcases hst with h | h <;> omega) (by omega) (by omega)
      obtain ⟨rest, hrest⟩ := ih (MinInt (b + cl - 1) L + 1) (by omega) (by omega)
      refine ⟨{ ID := rec.ID
                BpStart := b
                BpEnd := MinInt (b + cl - 1) L
                Starts := starts
                wSize := ws
                wStride := st
                Seq := SubSeq rec.Seq b (MinInt (b + cl - 1) L) } :: rest, ?_⟩
      simp only [ChunkGenome.loop, hg, if_pos hlt, h1, h2, h3, hstarts, hrest, Outcome.bind]
    · exact ⟨[], by simp [ChunkGenome.loop, hg, hlt]⟩

/-- Bounds of every chunk of a carving and of every window in it. -/
theorem Carved.bounds {gas : Nat} {rec : Record} {ws st cl L : Int}
    (hf : Fits ws st cl L) {b : Int} {cs : List Chunk}
    (h : Carved gas rec ws st cl L b cs) (hb : 1 ≤ b) :
    ∀ c ∈ cs, b ≤ c.BpStart ∧ c.BpStart ≤ c.BpEnd ∧ c.BpEnd ≤ L ∧
      c.BpEnd - c.BpStart + 1 ≤ cl ∧
      ∀ s ∈ c.Starts, 0 ≤ s ∧ c.BpStart + s + ws - 1 ≤ c.BpEnd := by
  obtain ⟨hw, hs, hcl, hL, hst, hst2⟩ := hf
  induction h with
  | stop b h => simp
  | step b starts rest hlt hr hrest ih =>
    have hend : b ≤ MinInt (b + cl - 1) L ∧ MinInt (b + cl - 1) L ≤ L ∧
        MinInt (b + cl - 1) L ≤ b + cl - 1 := by
      unfold MinInt
      split <;> omega
    intro c hc
    rcases List.mem_cons.1 hc with rfl | hc
    · refine ⟨le_refl _, hend.1, hend.2.1, by simp only; omega, ?_⟩
      intro s hsm
      have := MakeRange_mem (show 0 < st by omega) (by omega)
        (by rcases hst with h | h <;> omega) hr s hsm
      simp only
      omega
    · obtain ⟨h1, h2⟩ := ih (by omega) c hc
      exact ⟨by omega, h2⟩

/-- The first chunk of a carving starts where the loop was entered, and each
later chunk starts one base after the end of the one before. -/
theorem Carved.chain {gas : Nat} {rec : Record} {ws st cl L : Int}
    (hw : 1 ≤ ws) (hcl : ws ≤ cl) {b : Int} {cs : List Chunk}
    (h : Carved gas rec ws st cl L b cs) :
    (∀ c ∈ cs.head?, c.BpStart = b) ∧
      List.Chain' (fun a c : Chunk => c.BpStart = a.BpEnd + 1 ∧ a.BpStart < c.BpStart) cs := by
  induction h with
  | stop b h => simp
  | step b starts rest hlt hr hrest ih =>
    have hend : b ≤ MinInt (b + cl - 1) L := by
      unfold MinInt
      split <;> omega
    refine ⟨by simp, ?_⟩
    rw [List.chain'_cons']
    refine ⟨?_, ih.2⟩
    intro c hc
    have := ih.1 c hc
    simp only
    omega

/-- Every chunk of a carving but the last spans `cl` bases. -/
theorem Carved.full {gas : Nat} {rec : Record} {ws st cl L : Int} (hw : 1 ≤ ws)
    {b : Int} {cs : List Chunk} (h : Carved gas rec ws st cl L b cs) :
    ∀ c ∈ cs.dropLast, c.BpEnd - c.BpStart + 1 = cl := by
  induction h with
  | stop b h => simp
  | step b starts rest hlt hr hrest ih =>
    cases hrest with
    | stop b2 h2 => simp
    | step b2 starts2 rest2 hlt2 hr2 hrest2 =>
      intro c hc
      rw [List.dropLast_cons₂] at hc
      rcases List.mem_cons.1 hc with rfl | hc
      · simp only
        have : MinInt (b + cl - 1) L = b + cl - 1 := by
          unfold MinInt at hlt2 ⊢
          split <;> split at hlt2 <;> omega
        omega
      · exact ih c hc

/-! ## The chunks of a list of records -/

theorem Outcome.bind_ok_self {α : Type} (x : Outcome α) : (x.bind fun a => .ok a) = x := by
  cases x <;> rfl

theorem chunkLen_ge (ws st cs : Int) (hs : 1 ≤ st) (hc : 1 ≤ cs) :
    ws ≤ ws + (cs - 1) * st := by
  have : 0 ≤ (cs - 1) * st := mul_nonneg (by omega) (by omega)
  omega

theorem ChunkGenome_cons (fuel : Nat) (r : Record) (rest : List Record) (ws st cs : Int) :
    ChunkGenome fuel (r :: rest) ws st cs =
      (ChunkGenome.record fuel r ws st cs).bind fun g =>
        (ChunkGenome fuel rest ws st cs).bind fun cs2 => .ok (g ++ cs2) := rfl

theorem ChunkGenome_single (fuel : Nat) (r : Record) (ws st cs : Int) :
    ChunkGenome fuel [r] ws st cs = ChunkGenome.record fuel r ws st cs := by
  simp only [ChunkGenome]
  cases ChunkGenome.record fuel r ws st cs <;> simp [Outcome.bind]

theorem ChunkGenome_cons_ok {fuel : Nat} {r : Record} {rest : List Record} {ws st cs : Int}
    {chunks : List Chunk} (h : ChunkGenome fuel (r :: rest) ws st cs = .ok chunks) :
    ∃ g cs2, ChunkGenome.record fuel r ws st cs = .ok g ∧
      ChunkGenome fuel rest ws st cs = .ok cs2 ∧ chunks = g ++ cs2 := by
  simp only [ChunkGenome] at h
  obtain ⟨g, hg, h⟩ := Outcome.bind_eq_ok h
  obtain ⟨cs2, hcs2, h⟩ := Outcome.bind_eq_ok h
  injection h with h
  exact ⟨g, cs2, hg, hcs2, h.symm⟩

theorem chunkLen_wrap {ws st cs L : Int} (hw : 1 ≤ ws) (hs : 1 ≤ st) (hc : 1 ≤ cs)
    (hL : 0 ≤ L) (hr : L + (ws + (cs - 1) * st) < 2 ^ 63) :
    wrap (ws + wrap (wrap (cs - 1) * st)) = ws + (cs - 1) * st := by
  have hp : 0 ≤ (cs - 1) * st := mul_nonneg (by omega) (by omega)
  have hq : cs - 1 ≤ (cs - 1) * st := le_mul_of_one_le_right (by omega) hs
  have h1 : wrap (cs - 1) = cs - 1 := wrap_eq (by omega) (by omega)
  rw [h1]
  generalize (cs - 1) * st = p at hp hq hr ⊢
  have h2 : wrap p = p := wrap_eq (by omega) (by omega)
  rw [h2]
  exact wrap_eq (by omega) (by omega)

theorem Fits.of_sizes {ws st cs L : Int} (hw : 1 ≤ ws) (hs : 1 ≤ st) (hc : 1 ≤ cs)
    (hst2 : st < 2 ^ 63) (hr : L + (ws + (cs - 1) * st) < 2 ^ 63) :
    Fits ws st (ws + (cs - 1) * st) L := by
  refine ⟨hw, hs, chunkLen_ge ws st cs hs hc, hr, ?_, hst2⟩
  rcases eq_or_lt_of_le hc with h | h
  · left
    rw [← h]
    simp
  · right
    have hq : 1 * st ≤ (cs - 1) * st := mul_le_mul_of_nonneg_right (by omega) (by omega)
    omega

theorem ChunkGenome.record_carved {fuel : Nat} {r : Record} {ws st cs : Int} {g : List Chunk}
    (hw : 1 ≤ ws) (hs : 1 ≤ st) (hc : 1 ≤ cs) (hst2 : st < 2 ^ 63)
    (hr : (r.Seq.length : Int) + (ws + (cs - 1) * st) < 2 ^ 63)
    (h : ChunkGenome.record fuel r ws st cs = .ok g) :
    Carved fuel r ws st (ws + (cs - 1) * st) (r.Seq.length : Int) 1 g := by
  unfold ChunkGenome.record at h
  rw [chunkLen_wrap hw hs hc (Int.natCast_nonneg _) hr] at h
  exact ChunkGenome.loop_carved fuel r ws st _ _ (Fits.of_sizes hw hs hc hst2 hr)
    fuel 1 g (le_refl 1) h

theorem ChunkGenome.record_terminates (r : Record) (ws st cs : Int)
    (hw : 1 ≤ ws) (hs : 1 ≤ st) (hc : 1 ≤ cs) (hst2 : st < 2 ^ 63)
    (hr : (r.Seq.length : Int) + (ws + (cs - 1) * st) < 2 ^ 63)
    (fuel : Nat) (hfuel : r.Seq.length ≤ fuel) :
    ∃ g, ChunkGenome.record fuel r ws st cs = .ok g := by
  unfold ChunkGenome.record
  rw [chunkLen_wrap hw hs hc (Int.natCast_nonneg _) hr]
  exact ChunkGenome.loop_returns fuel r ws st _ _ (Fits.of_sizes hw hs hc hst2 hr)
    (by omega) fuel 1 (le_refl 1) (by omega)

theorem ChunkGenome_terminates (records : List Record) (ws st cs : Int)
    (hw : 1 ≤ ws) (hs : 1 ≤ st) (hc : 1 ≤ cs) (hst2 : st < 2 ^ 63)
    (hr : ∀ r ∈ records, (r.Seq.length : Int) + (ws + (cs - 1) * st) < 2 ^ 63) :
    ∃ N : Nat, ∀ fuel, N ≤ fuel → ∃ chunks, ChunkGenome fuel records ws st cs = .ok chunks := by
  induction records with
  | nil => exact ⟨0, fun fuel _ => ⟨[], rfl⟩⟩
  | cons r rest ih =>
    obtain ⟨N, hN⟩ := ih (fun q hq => hr q (List.mem_cons_of_mem _ hq))
    refine ⟨max r.Seq.length N, fun fuel hfuel => ?_⟩
    obtain ⟨g, hg⟩ := ChunkGenome.record_terminates r ws st cs hw hs hc hst2
      (hr r (List.mem_cons_self _ _)) fuel (le_trans (le_max_left _ _) hfuel)
    obtain ⟨cs2, hcs2⟩ := hN fuel (le_trans (le_max_right _ _) hfuel)
    exact ⟨g ++ cs2, by simp [ChunkGenome, hg, hcs2, Outcome.bind]⟩

theorem ChunkGenome_returns (records : List Record) (ws st cs : Int)
    (hw : 1 ≤ ws) (hs : 1 ≤ st) (hc : 1 ≤ cs) (hst2 : st < 2 ^ 63)
    (hr : ∀ r ∈ records, (r.Seq.length : Int) + (ws + (cs - 1) * st) < 2 ^ 63) :
    ∃ fuel chunks, ChunkGenome fuel records ws st cs = .ok chunks := by
  obtain ⟨N, hN⟩ := ChunkGenome_terminates records ws st cs hw hs hc hst2 hr
  exact ⟨N, hN N (le_refl N)⟩

/-- The chunks of a run are the chunks of its records, record after record. -/
theorem ChunkGenome_groups {fuel : Nat} {ws st cs : Int} :
    ∀ {records : List Record} {chunks : List Chunk},
      ChunkGenome fuel records ws st cs = .ok chunks →
      ∃ groups : List (List Chunk), chunks = groups.flatten ∧
        List.Forall₂ (fun (r : Record) (g : List Chunk) =>
          ChunkGenome.record fuel r ws st cs = .ok g) records groups := by
  intro records
  induction records with
  | nil =>
    intro chunks h
    simp only [ChunkGenome] at h
    injection h with h
    exact ⟨[], by simp [h.symm], List.Forall₂.nil⟩
  | cons r rest ih =>
    intro chunks h
    obtain ⟨g, cs2, hg, hcs2, rfl⟩ := ChunkGenome_cons_ok h
    obtain ⟨groups, rfl, hall⟩ := ih hcs2
    exact ⟨g :: groups, by simp, List.Forall₂.cons hg hall⟩

theorem ChunkGenome_mem_record {fuel : Nat} {ws st cs : Int} :
    ∀ {records : List Record} {chunks : List Chunk},
      ChunkGenome fuel records ws st cs = .ok chunks → ∀ c ∈ chunks,
      ∃ r ∈ records, ∃ g, ChunkGenome.record fuel r ws st cs = .ok g ∧ c ∈ g := by
  intro records
  induction records with
  | nil =>
    intro chunks h c hc
    simp only [ChunkGenome] at h
    injection h with h
    subst h
    cases hc
  | cons r rest ih =>
    intro chunks h c hc
    obtain ⟨g, cs2, hg, hcs2, rfl⟩ := ChunkGenome_cons_ok h
    rcases List.mem_append.1 hc with hc | hc
    · exact ⟨r, List.mem_cons_self _ _, g, hg, hc⟩
    · obtain ⟨r2, hr2, g2, hg2, hc2⟩ := ih hcs2 c hc
      exact ⟨r2, List.mem_cons_of_mem _ hr2, g2, hg2, hc2⟩

theorem ChunkGenome.record_short (fuel : Nat) (r : Record) (ws st cs : Int)
    (h : (r.Seq.length : Int) < ws) : ChunkGenome.record fuel r ws st cs = .ok [] := by
  have hn : ¬ (1 : Int) < guardBound (r.Seq.length : Int) ws := by
    rw [guardBound_eq (by omega)]
    omega
  cases fuel <;> simp [ChunkGenome.record, ChunkGenome.loop, hn]

/-! ## Claims on `ChunkGenome` -/

theorem forall₂_with_mem {α β : Type} {R : α → β → Prop} :
    ∀ {l1 : List α} {l2 : List β}, List.Forall₂ R l1 l2 →
      List.Forall₂ (fun a b => a ∈ l1 ∧ R a b) l1 l2 := by
  intro l1 l2 h
  induction h with
  | nil => exact List.Forall₂.nil
  | cons hab _ ih =>
    exact List.Forall₂.cons ⟨List.mem_cons_self _ _, hab⟩
      (ih.imp fun {_ _} hx => ⟨List.mem_cons_of_mem _ hx.1, hx.2⟩)

/-- C6 (amended): with `winSize`, `winStride`, `chunkSize` at least 1,
`winStride` an `int` and, for every record, the sum of its length and
`winSize + (chunkSize-1)*winStride` below `2^63`, `ChunkGenome` returns, and
every window of every chunk it sends lies inside the chunk: each `s` in `Starts`
has `0 ≤ s` and `BpStart + s + winSize - 1 ≤ BpEnd`. -/
theorem windows_fit_in_chunk (records : List Record) (ws st cs : Int)
    (hw : 1 ≤ ws) (hs : 1 ≤ st) (hc : 1 ≤ cs) (hst2 : st < 2 ^ 63)
    (hr : ∀ r ∈ records, (r.Seq.length : Int) + (ws + (cs - 1) * st) < 2 ^ 63) :
    (∃ fuel chunks, ChunkGenome fuel records ws st cs = .ok chunks) ∧
    ∀ fuel chunks, ChunkGenome fuel records ws st cs = .ok chunks →
      ∀ c ∈ chunks, ∀ s ∈ c.Starts, 0 ≤ s ∧ c.BpStart + s + ws - 1 ≤ c.BpEnd := by
  refine ⟨ChunkGenome_returns records ws st cs hw hs hc hst2 hr, ?_⟩
  intro fuel chunks h c hc2
  obtain ⟨r, hrm, g, hg, hcg⟩ := ChunkGenome_mem_record h c hc2
  exact ((ChunkGenome.record_carved hw hs hc hst2 (hr r hrm) hg).bounds
    (Fits.of_sizes hw hs hc hst2 (hr r hrm)) (le_refl 1) c hcg).2.2.2.2

/-- C7 (amended): with `winSize`, `winStride`, `chunkSize` at least 1,
`winStride` an `int` and, for every record, the sum of its length and
`winSize + (chunkSize-1)*winStride` below `2^63`, `ChunkGenome` returns, and the
chunks it sends are the chunks of the first record, then those of the second,
and so on; the chunks of one record begin at `BpStart = 1`, and each later one
has `BpStart` equal to the `BpEnd` of the one before plus 1, so `BpStart`
increases strictly. -/
theorem chunks_contiguous_in_record_order (records : List Record) (ws st cs : Int)
    (hw : 1 ≤ ws) (hs : 1 ≤ st) (hc : 1 ≤ cs) (hst2 : st < 2 ^ 63)
    (hr : ∀ r ∈ records, (r.Seq.length : Int) + (ws + (cs - 1) * st) < 2 ^ 63) :
    (∃ fuel chunks, ChunkGenome fuel records ws st cs = .ok chunks) ∧
    ∀ fuel chunks, ChunkGenome fuel records ws st cs = .ok chunks →
      ∃ groups : List (List Chunk), chunks = groups.flatten ∧
        List.Forall₂ (fun (r : Record) (g : List Chunk) =>
          ChunkGenome fuel [r] ws st cs = .ok g ∧
          (∀ c ∈ g.head?, c.BpStart = 1) ∧
          List.Chain' (fun a c : Chunk =>
            c.BpStart = a.BpEnd + 1 ∧ a.BpStart < c.BpStart) g) records groups := by
  refine ⟨ChunkGenome_returns records ws st cs hw hs hc hst2 hr, ?_⟩
  intro fuel chunks h
  obtain ⟨groups, hj, hall⟩ := ChunkGenome_groups h
  refine ⟨groups, hj, (forall₂_with_mem hall).imp ?_⟩
  intro r g hg
  have hch := (ChunkGenome.record_carved hw hs hc hst2 (hr r hg.1) hg.2).chain hw
    (chunkLen_ge ws st cs hs hc)
  exact ⟨by rw [ChunkGenome_single]; exact hg.2, hch.1, hch.2⟩

/-- C8 (amended): with `winSize`, `winStride`, `chunkSize` at least 1,
`winStride` an `int`, `chunkLen = winSize + (chunkSize-1)*winStride` and
`L + chunkLen` below `2^63`, `ChunkGenome` returns on a record of length `L`,
every chunk has `1 ≤ BpStart ≤ BpEnd ≤ L` and spans at most `chunkLen` bases,
and every chunk but the last spans exactly `chunkLen`. -/
theorem chunk_bounds (r : Record) (ws st cs : Int)
    (hw : 1 ≤ ws) (hs : 1 ≤ st) (hc : 1 ≤ cs) (hst2 : st < 2 ^ 63)
    (hr : (r.Seq.length : Int) + (ws + (cs - 1) * st) < 2 ^ 63) :
    (∃ fuel chunks, ChunkGenome fuel [r] ws st cs = .ok chunks) ∧
    ∀ fuel chunks, ChunkGenome fuel [r] ws st cs = .ok chunks →
      (∀ c ∈ chunks, 1 ≤ c.BpStart ∧ c.BpStart ≤ c.BpEnd ∧ c.BpEnd ≤ (r.Seq.length : Int) ∧
        c.BpEnd - c.BpStart + 1 ≤ ws + (cs - 1) * st) ∧
      ∀ c ∈ chunks.dropLast, c.BpEnd - c.BpStart + 1 = ws + (cs - 1) * st := by
  have hr2 : ∀ q ∈ [r], (q.Seq.length : Int) + (ws + (cs - 1) * st) < 2 ^ 63 := by
    intro q hq
    rw [List.mem_singleton.1 hq]
    exact hr
  refine ⟨ChunkGenome_returns [r] ws st cs hw hs hc hst2 hr2, ?_⟩
  intro fuel chunks h
  rw [ChunkGenome_single] at h
  have hcv := ChunkGenome.record_carved hw hs hc hst2 hr h
  refine ⟨fun c hcm => ?_, hcv.full hw⟩
  obtain ⟨h1, h2, h3, h4, _⟩ := hcv.bounds (Fits.of_sizes hw hs hc hst2 hr) (le_refl 1) c hcm
  exact ⟨h1, h2, h3, h4⟩

/-- C9: a record shorter than `winSize` yields no chunk, and the run goes on
with the records after it as if the short record were not there. -/
theorem short_record_yields_no_chunk (fuel : Nat) (pre post : List Record) (r : Record)
    (ws st cs : Int) (h : (r.Seq.length : Int) < ws) :
    ChunkGenome fuel [r] ws st cs = .ok [] ∧
    ChunkGenome fuel (pre ++ r :: post) ws st cs = ChunkGenome fuel (pre ++ post) ws st cs := by
  have hr := ChunkGenome.record_short fuel r ws st cs h
  refine ⟨by rw [ChunkGenome_single]; exact hr, ?_⟩
  induction pre with
  | nil =>
    simp only [List.nil_append, ChunkGenome, hr, Outcome.bind]
    exact Outcome.bind_ok_self _
  | cons p pre ih =>
    rw [List.cons_append, List.cons_append, ChunkGenome_cons, ChunkGenome_cons, ih]

/-- C6, at a record of 100 bases with windows of 10 bases, stride 5 and chunks
of 3 windows. -/
theorem windows_fit_in_chunk_witness :
    ((1 : Int) ≤ 10 ∧ (1 : Int) ≤ 5 ∧ (1 : Int) ≤ 3 ∧ (5 : Int) < 2 ^ 63 ∧
      ∀ r ∈ [polyA 100], (r.Seq.length : Int) + (10 + (3 - 1) * 5) < 2 ^ 63) ∧
    (∃ fuel chunks, ChunkGenome fuel [polyA 100] 10 5 3 = .ok chunks) ∧
    ∀ fuel chunks, ChunkGenome fuel [polyA 100] 10 5 3 = .ok chunks →
      ∀ c ∈ chunks, ∀ s ∈ c.Starts, 0 ≤ s ∧ c.BpStart + s + 10 - 1 ≤ c.BpEnd :=
  ⟨by decide, windows_fit_in_chunk [polyA 100] 10 5 3 (by decide) (by decide) (by decide)
    (by decide) (by decide)⟩

set_option maxRecDepth 100000 in
/-- C6 (counterexample): on a record of 5 bases with `winSize = 3`,
`winStride = 2^63 - 1` and `chunkSize = 4` the product `3 * winStride` wraps and
`chunkLen` is `-2^63`. The first chunk sent has `BpStart = 1`, `BpEnd = -2^63`
and `Starts = [0]`: its window ends at base 3, which is beyond `BpEnd`. -/
theorem window_outside_chunk_on_wrapped_chunkLen :
    (ChunkGenome.recordSent 1 (polyA 5) 3 9223372036854775807 4).map
      (fun c => (c.BpStart, c.BpEnd, c.Starts)) = [(1, -9223372036854775808, [0])] ∧
    ∃ c ∈ ChunkGenome.recordSent 1 (polyA 5) 3 9223372036854775807 4,
      ∃ s ∈ c.Starts, ¬ (c.BpStart + s + 3 - 1 ≤ c.BpEnd) := by
  decide

/-- C7, at two records of 100 and 50 bases with windows of 10 bases, stride 5
and chunks of 3 windows. -/
theorem chunks_contiguous_in_record_order_witness :
    ((1 : Int) ≤ 10 ∧ (1 : Int) ≤ 5 ∧ (1 : Int) ≤ 3 ∧ (5 : Int) < 2 ^ 63 ∧
      ∀ r ∈ [polyA 100, polyA 50], (r.Seq.length : Int) + (10 + (3 - 1) * 5) < 2 ^ 63) ∧
    (∃ fuel chunks, ChunkGenome fuel [polyA 100, polyA 50] 10 5 3 = .ok chunks) ∧
    ∀ fuel chunks, ChunkGenome fuel [polyA 100, polyA 50] 10 5 3 = .ok chunks →
      ∃ groups : List (List Chunk), chunks = groups.flatten ∧
        List.Forall₂ (fun (r : Record) (g : List Chunk) =>
          ChunkGenome fuel [r] 10 5 3 = .ok g ∧
          (∀ c ∈ g.head?, c.BpStart = 1) ∧
          List.Chain' (fun a c : Chunk =>
            c.BpStart = a.BpEnd + 1 ∧ a.BpStart < c.BpStart) g)
          [polyA 100, polyA 50] groups :=
  ⟨by decide, chunks_contiguous_in_record_order [polyA 100, polyA 50] 10 5 3
    (by decide) (by decide) (by decide) (by decide) (by decide)⟩

set_option maxRecDepth 100000 in
/-- C7 (counterexample): on a record of 10 bases with `winSize = 1`,
`winStride = 1676976733973595601` and `chunkSize = 12` the product
`11 * winStride` wraps to -5 and `chunkLen` is -4. The first three chunks sent
have `BpStart` 1, -3 and -7: `BpStart` decreases from chunk to chunk, and the
run has not returned after five rounds of the loop. -/
theorem chunk_starts_decrease_on_wrapped_chunkLen :
    (ChunkGenome.recordSent 3 (polyA 10) 1 1676976733973595601 12).map
      (fun c => c.BpStart) = [1, -3, -7] ∧
    ¬ List.Pairwise (fun a b : Int => a < b)
      ((ChunkGenome.recordSent 3 (polyA 10) 1 1676976733973595601 12).map
        (fun c => c.BpStart)) ∧
    ChunkGenome 5 [polyA 10] 1 1676976733973595601 12 = .outOfFuel := by
  decide

/-- C8, at a record of 100 bases with windows of 10 bases, stride 5 and chunks
of 3 windows, where `chunkLen` is 20. -/
theorem chunk_bounds_witness :
    ((1 : Int) ≤ 10 ∧ (1 : Int) ≤ 5 ∧ (1 : Int) ≤ 3 ∧ (5 : Int) < 2 ^ 63 ∧
      ((polyA 100).Seq.length : Int) + (10 + (3 - 1) * 5) < 2 ^ 63) ∧
    (∃ fuel chunks, ChunkGenome fuel [polyA 100] 10 5 3 = .ok chunks) ∧
    ∀ fuel chunks, ChunkGenome fuel [polyA 100] 10 5 3 = .ok chunks →
      (∀ c ∈ chunks, 1 ≤ c.BpStart ∧ c.BpStart ≤ c.BpEnd ∧
        c.BpEnd ≤ ((polyA 100).Seq.length : Int) ∧
        c.BpEnd - c.BpStart + 1 ≤ 10 + (3 - 1) * 5) ∧
      ∀ c ∈ chunks.dropLast, c.BpEnd - c.BpStart + 1 = 10 + (3 - 1) * 5 :=
  ⟨by decide, chunk_bounds (polyA 100) 10 5 3 (by decide) (by decide) (by decide)
    (by decide) (by decide)⟩

set_option maxRecDepth 100000 in
/-- C8 (counterexample): on a record of 20 bases with `winSize = 1`,
`winStride = 1676976733973595601` and `chunkSize = 12`, where `chunkLen` wraps
to -4, the first two chunks sent are `[1, -4]` and `[-3, -8]`: `BpEnd` is below
`BpStart`, and the second `BpStart` is below 1. -/
theorem chunk_end_before_start_on_wrapped_chunkLen :
    (ChunkGenome.recordSent 2 (polyA 20) 1 1676976733973595601 12).map
      (fun c => (c.BpStart, c.BpEnd)) = [(1, -4), (-3, -8)] ∧
    ∃ c ∈ ChunkGenome.recordSent 2 (polyA 20) 1 1676976733973595601 12,
      ¬ (1 ≤ c.BpStart ∧ c.BpStart ≤ c.BpEnd) := by
  decide

/-- C9, at a record of 4 bases between two records of 30 bases, with windows of
10 bases. -/
theorem short_record_yields_no_chunk_witness :
    (((polyA 4).Seq.length : Int) < 10) ∧
    ChunkGenome 30 [polyA 4] 10 5 3 = .ok [] ∧
    ChunkGenome 30 ([polyA 30] ++ polyA 4 :: [polyA 30]) 10 5 3 =
      ChunkGenome 30 ([polyA 30] ++ [polyA 30]) 10 5 3 :=
  ⟨by decide, short_record_yields_no_chunk 30 [polyA 30] [polyA 30] (polyA 4) 10 5 3
    (by decide)⟩

set_option maxRecDepth 100000 in
/-- C1: on a record of 100 bases with `winSize = 10`, `winStride = 5` and
`chunkSize = 3`, the window starts of the chunks sent are 1, 6, 11 and then 21:
from the last window of a chunk to the first window of the next chunk the start
moves by `winSize = 10`, not by `winStride = 5`. -/
theorem window_starts_jump_between_chunks :
    ((ChunkGenome 100 [polyA 100] 10 5 3).bind fun chunks => .ok (windowStarts chunks)) =
      .ok [1, 6, 11, 21, 26, 31, 41, 46, 51, 61, 66, 71, 81, 86, 91] := by
  decide

/-- C2: a record of exactly `winSize = 10` bases yields no chunk at all, for
every fuel: the loop stops with 10 bases left, which is not fewer than
`winSize`. -/
theorem full_window_left_behind (fuel : Nat) :
    ChunkGenome fuel [polyA 10] 10 1 1 = .ok [] := by
  have hn : ¬ (1 : Int) < guardBound ((polyA 10).Seq.length : Int) 10 := by decide
  rw [ChunkGenome_single]
  cases fuel <;> simp [ChunkGenome.record, ChunkGenome.loop, hn]

set_option maxRecDepth 100000 in
/-- C3: a record of 1000 bases with `winSize = 100`, `winStride = 100` and
`chunkSize = 1` gives 9 chunks of one window, hence 9 rows, not 10. -/
theorem nine_rows_for_chunk_size_one :
    totalRows ((ChunkGenome 1000 [polyA 1000] 100 100 1).bind fun chunks =>
      ConsumeChunks sampleExternals chunks [] "") = some 9 := by
  decide

/-! ## The tables of `ConsumeChunks` -/

theorem ConsumeChunks.metricLoop_length (E : Externals) (w : List Char) :
    ∀ (mc : List (Nat × String)) (row r : List String),
      ConsumeChunks.metricLoop E w mc row = .ok r → r.length = row.length := by
  intro mc
  induction mc with
  | nil =>
    intro row r h
    simp only [ConsumeChunks.metricLoop] at h
    injection h with h
    rw [h]
  | cons p rest ih =>
    intro row r h
    obtain ⟨col, field⟩ := p
    simp only [ConsumeChunks.metricLoop] at h
    split at h
    · rw [ih _ _ h, List.length_set]
    · cases h

theorem ConsumeChunks.kmerLoop_length (E : Externals) (dm : String) (w : List Char) :
    ∀ (kc : List (Nat × Int)) (row : List String),
      (ConsumeChunks.kmerLoop E dm w kc row).length = row.length := by
  intro kc
  induction kc with
  | nil => intro row; rfl
  | cons p rest ih =>
    intro row
    obtain ⟨col, k⟩ := p
    simp only [ConsumeChunks.kmerLoop]
    rw [ih, List.length_set]

theorem ConsumeChunks.window_length {E : Externals} {mc : List (Nat × String)}
    {kc : List (Nat × Int)} {dm : String} {c : Chunk} {row r : List String} {start : Int}
    (h : ConsumeChunks.window E mc kc dm c row start = .ok r) : r.length = row.length := by
  simp only [ConsumeChunks.window] at h
  obtain ⟨r1, h1, h⟩ := Outcome.bind_eq_ok h
  injection h with h
  rw [← h, ConsumeChunks.kmerLoop_length, ConsumeChunks.metricLoop_length E _ _ _ _ h1]
  simp

theorem ConsumeChunks.windows_shape (E : Externals) (mc : List (Nat × String))
    (kc : List (Nat × Int)) (dm : String) (c : Chunk) (k : Nat) :
    ∀ (starts : List Int) (data d : List (List String)),
      ConsumeChunks.windows E mc kc dm c data starts = .ok d →
      (∀ row ∈ data, row.length = k) →
      d.length = data.length ∧ ∀ row ∈ d, row.length = k := by
  intro starts
  induction starts with
  | nil =>
    intro data d h hk
    cases data <;>
    · simp only [ConsumeChunks.windows] at h
      injection h with h
      subst h
      exact ⟨rfl, hk⟩
  | cons start starts ih =>
    intro data d h hk
    cases data with
    | nil => simp [ConsumeChunks.windows] at h
    | cons row data =>
      simp only [ConsumeChunks.windows] at h
      obtain ⟨r, hr, h⟩ := Outcome.bind_eq_ok h
      obtain ⟨d2, hd2, h⟩ := Outcome.bind_eq_ok h
      injection h with h
      subst h
      obtain ⟨hlen, hrows⟩ := ih data d2 hd2 (fun x hx => hk x (List.mem_cons_of_mem _ hx))
      refine ⟨by simp [hlen], ?_⟩
      intro x hx
      rcases List.mem_cons.1 hx with rfl | hx
      · rw [ConsumeChunks.window_length hr]
        exact hk row (List.mem_cons_self _ _)
      · exact hrows x hx

theorem ConsumeChunks.chunk_shape {E : Externals} {header : List String} {nFeatures : Nat}
    {mc : List (Nat × String)} {kc : List (Nat × Int)} {dm : String} {c : Chunk}
    {t : ChunkResult} (h : ConsumeChunks.chunk E header nFeatures mc kc dm c = .ok t) :
    t.Header = header ∧ t.Data.length = c.Starts.length ∧
      ∀ row ∈ t.Data, row.length = nFeatures := by
  simp only [ConsumeChunks.chunk] at h
  obtain ⟨data, hdata, h⟩ := Outcome.bind_eq_ok h
  injection h with h
  subst h
  obtain ⟨hlen, hrows⟩ := ConsumeChunks.windows_shape E mc kc dm c nFeatures _ _ _ hdata
    (by
      intro row hrow
      rw [Build2dSlice, List.mem_replicate] at hrow
      rw [hrow.2, List.length_replicate])
  exact ⟨rfl, by simp [hlen, Build2dSlice], hrows⟩

theorem ConsumeChunks.loop_shape {E : Externals} {header : List String} {nFeatures : Nat}
    {mc : List (Nat × String)} {kc : List (Nat × Int)} {dm : String} :
    ∀ {chunks : List Chunk} {tables : List ChunkResult},
      ConsumeChunks.loop E header nFeatures mc kc dm chunks = .ok tables →
      List.Forall₂ (fun (c : Chunk) (t : ChunkResult) =>
        t.Header = header ∧ t.Data.length = c.Starts.length ∧
          ∀ row ∈ t.Data, row.length = nFeatures) chunks tables := by
  intro chunks
  induction chunks with
  | nil =>
    intro tables h
    simp only [ConsumeChunks.loop] at h
    injection h with h
    subst h
    exact List.Forall₂.nil
  | cons c rest ih =>
    intro tables h
    simp only [ConsumeChunks.loop] at h
    obtain ⟨t, ht, h⟩ := Outcome.bind_eq_ok h
    obtain ⟨ts, hts, h⟩ := Outcome.bind_eq_ok h
    injection h with h
    subst h
    exact List.Forall₂.cons (ConsumeChunks.chunk_shape ht) (ih hts)

/-! ## When `ConsumeChunks` fails -/

theorem ConsumeChunks.classify_fatal :
    ∀ (metrics : List String) (idx : Nat), (∃ m ∈ metrics, Overflows m) →
      ConsumeChunks.classify idx metrics = .fatal := by
  intro metrics
  induction metrics with
  | nil => intro idx h; simp at h
  | cons field rest ih =>
    intro idx h
    by_cases hov : Overflows field
    · obtain ⟨ds, hds, hat⟩ := hov
      simp only [ConsumeChunks.classify, hds, hat, checkError, Outcome.bind]
    · have hrest : ∃ m ∈ rest, Overflows m := by
        obtain ⟨m, hm, hmo⟩ := h
        rcases List.mem_cons.1 hm with rfl | hm
        · exact absurd hmo hov
        · exact ⟨m, hm, hmo⟩
      have hfatal := ih (idx + 1) hrest
      simp only [ConsumeChunks.classify]
      split
      · next ds _ =>
        cases Atoi ds <;> simp only [checkError, hfatal, Outcome.bind]
      · simp only [hfatal, Outcome.bind]

theorem ConsumeChunks.classify_ok :
    ∀ (metrics : List String) (idx : Nat), (∀ m ∈ metrics, ¬ Overflows m) →
      ∃ cols, ConsumeChunks.classify idx metrics = .ok cols ∧
        ∀ field, (∃ col, (col, field) ∈ cols.1) ↔
          (field ∈ metrics ∧ kmerRegex.FindStringSubmatch field.toList = none) := by
  intro metrics
  induction metrics with
  | nil => intro idx _; exact ⟨([], []), rfl, by simp⟩
  | cons field rest ih =>
    intro idx h
    obtain ⟨cols, hcols, hmem⟩ := ih (idx + 1) (fun m hm => h m (List.mem_cons_of_mem _ hm))
    cases hfind : kmerRegex.FindStringSubmatch field.toList with
    | none =>
      refine ⟨((idx + 3, field) :: cols.1, cols.2), by
        simp only [ConsumeChunks.classify, hfind, hcols, Outcome.bind], ?_⟩
      intro f
      constructor
      · rintro ⟨col, hc⟩
        rcases List.mem_cons.1 hc with heq | hc
        · injection heq with _ h2
          subst h2
          exact ⟨List.mem_cons_self _ _, hfind⟩
        · have := (hmem f).1 ⟨col, hc⟩
          exact ⟨List.mem_cons_of_mem _ this.1, this.2⟩
      · rintro ⟨hf, hnone⟩
        rcases List.mem_cons.1 hf with rfl | hf
        · exact ⟨idx + 3, List.mem_cons_self _ _⟩
        · obtain ⟨col, hc⟩ := (hmem f).2 ⟨hf, hnone⟩
          exact ⟨col, List.mem_cons_of_mem _ hc⟩
    | some ds =>
      cases hat : Atoi ds with
      | none => exact absurd ⟨ds, hfind, hat⟩ (h field (List.mem_cons_self _ _))
      | some k =>
        refine ⟨(cols.1, (idx + 3, k) :: cols.2), by
          simp only [ConsumeChunks.classify, hfind, hat, hcols, checkError, Outcome.bind], ?_⟩
        intro f
        constructor
        · rintro ⟨col, hc⟩
          have := (hmem f).1 ⟨col, hc⟩
          exact ⟨List.mem_cons_of_mem _ this.1, this.2⟩
        · rintro ⟨hf, hnone⟩
          rcases List.mem_cons.1 hf with rfl | hf
          · rw [hfind] at hnone
            cases hnone
          · exact (hmem f).2 ⟨hf, hnone⟩

theorem ConsumeChunks.metricLoop_ok (E : Externals) (w : List Char) :
    ∀ (mc : List (Nat × String)) (row : List String),
      (∀ p ∈ mc, E.fieldDispatcher p.2 ≠ none) →
      ∃ r, ConsumeChunks.metricLoop E w mc row = .ok r := by
  intro mc
  induction mc with
  | nil => intro row _; exact ⟨row, rfl⟩
  | cons p rest ih =>
    intro row h
    obtain ⟨col, field⟩ := p
    cases hf : E.fieldDispatcher field with
    | none => exact absurd hf (h (col, field) (List.mem_cons_self _ _))
    | some f =>
      obtain ⟨r, hr⟩ := ih (row.set col (E.fmtF (f w)))
        (fun q hq => h q (List.mem_cons_of_mem _ hq))
      exact ⟨r, by simp [ConsumeChunks.metricLoop, hf, hr]⟩

theorem ConsumeChunks.metricLoop_panic (E : Externals) (w : List Char) :
    ∀ (mc : List (Nat × String)) (row : List String),
      (∃ p ∈ mc, E.fieldDispatcher p.2 = none) →
      ConsumeChunks.metricLoop E w mc row = .panic := by
  intro mc
  induction mc with
  | nil => intro row h; simp at h
  | cons p rest ih =>
    intro row h
    obtain ⟨col, field⟩ := p
    cases hf : E.fieldDispatcher field with
    | none => simp [ConsumeChunks.metricLoop, hf]
    | some f =>
      have hrest : ∃ q ∈ rest, E.fieldDispatcher q.2 = none := by
        obtain ⟨q, hq, hqn⟩ := h
        rcases List.mem_cons.1 hq with rfl | hq
        · rw [hf] at hqn
          cases hqn
        · exact ⟨q, hq, hqn⟩
      simp [ConsumeChunks.metricLoop, hf, ih _ hrest]

theorem ConsumeChunks.windows_ok (E : Externals) (mc : List (Nat × String))
    (kc : List (Nat × Int)) (dm : String) (c : Chunk)
    (hknown : ∀ p ∈ mc, E.fieldDispatcher p.2 ≠ none) :
    ∀ (starts : List Int) (data : List (List String)), starts.length ≤ data.length →
      ∃ d, ConsumeChunks.windows E mc kc dm c data starts = .ok d := by
  intro starts
  induction starts with
  | nil => intro data _; exact ⟨data, by cases data <;> rfl⟩
  | cons start starts ih =>
    intro data hlen
    cases data with
    | nil => simp at hlen
    | cons row data =>
      obtain ⟨r, hr⟩ := ConsumeChunks.metricLoop_ok E
        (SubSeq c.Seq (wrap (start + 1)) (wrap (start + c.wSize))) mc
        (((row.set 0 c.ID).set 1 (toString (wrap (c.BpStart + start)))).set 2
          (toString (MinInt (wrap (wrap (wrap (c.BpStart + start) + c.wSize) - 1))
            c.BpEnd))) hknown
      obtain ⟨d, hd⟩ := ih data (by simpa using hlen)
      simp only [ConsumeChunks.windows, ConsumeChunks.window, hr, hd, Outcome.bind]
      exact ⟨_, rfl⟩

theorem ConsumeChunks.windows_panic (E : Externals) (mc : List (Nat × String))
    (kc : List (Nat × Int)) (dm : String) (c : Chunk)
    (hun : ∃ p ∈ mc, E.fieldDispatcher p.2 = none)
    (starts : List Int) (data : List (List String)) (hne : starts ≠ []) :
    ConsumeChunks.windows E mc kc dm c data starts = .panic := by
  cases starts with
  | nil => exact absurd rfl hne
  | cons start starts =>
    cases data with
    | nil => rfl
    | cons row data =>
      simp [ConsumeChunks.windows, ConsumeChunks.window,
        ConsumeChunks.metricLoop_panic E _ mc _ hun, Outcome.bind]

theorem ConsumeChunks.chunk_ok (E : Externals) (header : List String) (nFeatures : Nat)
    (mc : List (Nat × String)) (kc : List (Nat × Int)) (dm : String) (c : Chunk)
    (h : (∀ p ∈ mc, E.fieldDispatcher p.2 ≠ none) ∨ c.Starts = []) :
    ∃ t, ConsumeChunks.chunk E header nFeatures mc kc dm c = .ok t := by
  rcases h with h | h
  · obtain ⟨d, hd⟩ := ConsumeChunks.windows_ok E mc kc dm c h c.Starts
      (Build2dSlice c.Starts.length nFeatures) (by simp [Build2dSlice])
    simp only [ConsumeChunks.chunk, hd, Outcome.bind]
    exact ⟨_, rfl⟩
  · simp only [ConsumeChunks.chunk, h, List.length_nil, Build2dSlice, List.replicate,
      ConsumeChunks.windows, Outcome.bind]
    exact ⟨_, rfl⟩

theorem ConsumeChunks.chunk_panic (E : Externals) (header : List String) (nFeatures : Nat)
    (mc : List (Nat × String)) (kc : List (Nat × Int)) (dm : String) (c : Chunk)
    (hun : ∃ p ∈ mc, E.fieldDispatcher p.2 = none) (hne : c.Starts ≠ []) :
    ConsumeChunks.chunk E header nFeatures mc kc dm c = .panic := by
  simp [ConsumeChunks.chunk, ConsumeChunks.windows_panic E mc kc dm c hun _ _ hne, Outcome.bind]

theorem ConsumeChunks.loop_ok (E : Externals) (header : List String) (nFeatures : Nat)
    (mc : List (Nat × String)) (kc : List (Nat × Int)) (dm : String) :
    ∀ (chunks : List Chunk),
      ((∀ p ∈ mc, E.fieldDispatcher p.2 ≠ none) ∨ ∀ c ∈ chunks, c.Starts = []) →
      ∃ tables, ConsumeChunks.loop E header nFeatures mc kc dm chunks = .ok tables := by
  intro chunks
  induction chunks with
  | nil => intro _; exact ⟨[], rfl⟩
  | cons c rest ih =>
    intro h
    obtain ⟨t, ht⟩ := ConsumeChunks.chunk_ok E header nFeatures mc kc dm c
      (h.imp id fun h => h c (List.mem_cons_self _ _))
    obtain ⟨ts, hts⟩ := ih (h.imp id fun h x hx => h x (List.mem_cons_of_mem _ hx))
    exact ⟨t :: ts, by simp [ConsumeChunks.loop, ht, hts, Outcome.bind]⟩

theorem ConsumeChunks.loop_panic (E : Externals) (header : List String) (nFeatures : Nat)
    (mc : List (Nat × String)) (kc : List (Nat × Int)) (dm : String)
    (hun : ∃ p ∈ mc, E.fieldDispatcher p.2 = none) :
    ∀ (chunks : List Chunk), (∃ c ∈ chunks, c.Starts ≠ []) →
      ConsumeChunks.loop E header nFeatures mc kc dm chunks = .panic := by
  intro chunks
  induction chunks with
  | nil => intro h; simp at h
  | cons c rest ih =>
    intro h
    by_cases hc : c.Starts = []
    · have hrest : ∃ x ∈ rest, x.Starts ≠ [] := by
        obtain ⟨x, hx, hxn⟩ := h
        rcases List.mem_cons.1 hx with rfl | hx
        · exact absurd hc hxn
        · exact ⟨x, hx, hxn⟩
      obtain ⟨t, ht⟩ := ConsumeChunks.chunk_ok E header nFeatures mc kc dm c (Or.inr hc)
      simp [ConsumeChunks.loop, ht, ih hrest, Outcome.bind]
    · simp [ConsumeChunks.loop, ConsumeChunks.chunk_panic E header nFeatures mc kc dm c hun hc,
        Outcome.bind]

/-- The three ways a run of `ConsumeChunks` ends. -/
theorem ConsumeChunks_cases (E : Externals) (chunks : List Chunk) (metrics : List String)
    (dm : String) :
    ((∃ m ∈ metrics, Overflows m) ∧ ConsumeChunks E chunks metrics dm = .fatal) ∨
    ((¬ ∃ m ∈ metrics, Overflows m) ∧ (∃ m ∈ metrics, Unresolved E m) ∧
      (∃ c ∈ chunks, c.Starts ≠ []) ∧ ConsumeChunks E chunks metrics dm = .panic) ∨
    ((¬ ∃ m ∈ metrics, Overflows m) ∧
      ((¬ ∃ m ∈ metrics, Unresolved E m) ∨ ∀ c ∈ chunks, c.Starts = []) ∧
      ∃ tables, ConsumeChunks E chunks metrics dm = .ok tables) := by
  by_cases hov : ∃ m ∈ metrics, Overflows m
  · exact Or.inl ⟨hov, by
      simp [ConsumeChunks, ConsumeChunks.classify_fatal metrics 0 hov, Outcome.bind]⟩
  · obtain ⟨cols, hcols, hmem⟩ := ConsumeChunks.classify_ok metrics 0
      (fun m hm hmo => hov ⟨m, hm, hmo⟩)
    have hrun : ConsumeChunks E chunks metrics dm =
        ConsumeChunks.loop E (["chrom", "start", "end"] ++ metrics) (3 + metrics.length)
          cols.1 cols.2 dm chunks := by
      simp [ConsumeChunks, hcols, Outcome.bind]
    by_cases hun : ∃ m ∈ metrics, Unresolved E m
    · have hun2 : ∃ p ∈ cols.1, E.fieldDispatcher p.2 = none := by
        obtain ⟨m, hm, hfind, hdisp⟩ := hun
        obtain ⟨col, hc⟩ := (hmem m).2 ⟨hm, hfind⟩
        exact ⟨(col, m), hc, hdisp⟩
      by_cases hwin : ∃ c ∈ chunks, c.Starts ≠ []
      · exact Or.inr (Or.inl ⟨hov, hun, hwin, by
          rw [hrun]
          exact ConsumeChunks.loop_panic E _ _ _ _ dm hun2 chunks hwin⟩)
      · have hnone : ∀ c ∈ chunks, c.Starts = [] := by
          intro c hc
          by_contra hne
          exact hwin ⟨c, hc, hne⟩
        exact Or.inr (Or.inr ⟨hov, Or.inr hnone, by
          rw [hrun]
          exact ConsumeChunks.loop_ok E _ _ _ _ dm chunks (Or.inr hnone)⟩)
    · have hknown : ∀ p ∈ cols.1, E.fieldDispatcher p.2 ≠ none := by
        intro p hp hnone
        have := (hmem p.2).1 ⟨p.1, hp⟩
        exact hun ⟨p.2, this.1, this.2, hnone⟩
      exact Or.inr (Or.inr ⟨hov, Or.inl hun, by
        rw [hrun]
        exact ConsumeChunks.loop_ok E _ _ _ _ dm chunks (Or.inl hknown)⟩)

/-! ## Claims on `ConsumeChunks` -/

/-- C10: whenever `ConsumeChunks` completes, it has sent one table per chunk,
in chunk order; the table of a chunk has the header `chrom, start, end`
followed by the metric names in the caller's order, one row per entry of
`Starts`, and `3 + len(metrics)` cells in every row. It completes whenever every
requested name can be resolved. -/
theorem one_table_per_chunk (E : Externals) (chunks : List Chunk) (metrics : List String)
    (dm : String) :
    ((∀ m ∈ metrics, ¬ Overflows m ∧ ¬ Unresolved E m) →
      ∃ tables, ConsumeChunks E chunks metrics dm = .ok tables) ∧
    ∀ tables, ConsumeChunks E chunks metrics dm = .ok tables →
      List.Forall₂ (fun (c : Chunk) (t : ChunkResult) =>
        t.Header = ["chrom", "start", "end"] ++ metrics ∧
        t.Data.length = c.Starts.length ∧
        ∀ row ∈ t.Data, row.length = 3 + metrics.length) chunks tables := by
  constructor
  · intro hall
    rcases ConsumeChunks_cases E chunks metrics dm with
      ⟨⟨m, hm, hov⟩, _⟩ | ⟨_, ⟨m, hm, hun⟩, _, _⟩ | ⟨_, _, h⟩
    · exact absurd hov (hall m hm).1
    · exact absurd hun (hall m hm).2
    · exact h
  · intro tables h
    simp only [ConsumeChunks] at h
    obtain ⟨cols, _, h⟩ := Outcome.bind_eq_ok h
    exact ConsumeChunks.loop_shape h

/-- C10, at a chunk with two windows and the metrics `GC` and `3MER`: one table
of two rows and five columns. -/
theorem one_table_per_chunk_witness :
    ConsumeChunks sampleExternals [sampleChunk] ["GC", "3MER"] "" =
      .ok [{ Header := ["chrom", "start", "end", "GC", "3MER"]
             Data := [["chr1", "1", "4", "4", "0"], ["chr1", "5", "8", "4", "0"]] }] ∧
    List.Forall₂ (fun (c : Chunk) (t : ChunkResult) =>
        t.Header = ["chrom", "start", "end"] ++ ["GC", "3MER"] ∧
        t.Data.length = c.Starts.length ∧
        ∀ row ∈ t.Data, row.length = 3 + ["GC", "3MER"].length) [sampleChunk]
      [{ Header := ["chrom", "start", "end", "GC", "3MER"]
         Data := [["chr1", "1", "4", "4", "0"], ["chr1", "5", "8", "4", "0"]] }] :=
  ⟨by decide,
    (one_table_per_chunk sampleExternals [sampleChunk] ["GC", "3MER"] "").2 _ (by decide)⟩

/-- C4, as the claim states it, fails: the name `bogus` is neither matched by
`kmerRegex` nor a key of the registry, and `ConsumeChunks` on the empty chunk
stream completes without rejecting it. -/
theorem unknown_name_accepted_on_empty_stream :
    Unresolved sampleExternals "bogus" ∧
    ConsumeChunks sampleExternals [] ["bogus"] "" = .ok [] := by
  refine ⟨⟨by decide, rfl⟩, by decide⟩

/-- C4, amended: the only rejection at start-up, the same for every chunk
stream, is that of a k-mer name whose number `Atoi` refuses. A name that is
neither a k-mer name nor a key of the registry is not checked at start-up: the
run fails on it exactly when some chunk of the stream has a window, and
completes when no chunk has one, as on the empty stream. -/
theorem unresolved_name_fails_only_at_a_window (E : Externals) (chunks : List Chunk)
    (metrics : List String) (dm : String) :
    (ConsumeChunks E chunks metrics dm = .fatal ↔ ∃ m ∈ metrics, Overflows m) ∧
    (ConsumeChunks E chunks metrics dm = .panic ↔
      (¬ ∃ m ∈ metrics, Overflows m) ∧ (∃ m ∈ metrics, Unresolved E m) ∧
        ∃ c ∈ chunks, c.Starts ≠ []) ∧
    ((∃ tables, ConsumeChunks E chunks metrics dm = .ok tables) ↔
      (¬ ∃ m ∈ metrics, Overflows m) ∧
        ((¬ ∃ m ∈ metrics, Unresolved E m) ∨ ∀ c ∈ chunks, c.Starts = [])) := by
  rcases ConsumeChunks_cases E chunks metrics dm with
    ⟨hov, hr⟩ | ⟨hov, hun, hwin, hr⟩ | ⟨hov, hcond, tables, hr⟩
  · rw [hr]
    refine ⟨⟨fun _ => hov, fun _ => rfl⟩, ⟨(fun h => by cases h), fun h => absurd hov h.1⟩,
      ⟨fun h => ?_, fun h => absurd hov h.1⟩⟩
    obtain ⟨t, ht⟩ := h
    cases ht
  · rw [hr]
    refine ⟨⟨(fun h => by cases h), fun h => absurd h hov⟩,
      ⟨fun _ => ⟨hov, hun, hwin⟩, fun _ => rfl⟩, ⟨fun h => ?_, fun h => ?_⟩⟩
    · obtain ⟨t, ht⟩ := h
      cases ht
    · obtain ⟨c, hc, hne⟩ := hwin
      rcases h.2 with h2 | h2
      · exact absurd hun h2
      · exact absurd (h2 c hc) hne
  · rw [hr]
    refine ⟨⟨(fun h => by cases h), fun h => absurd h hov⟩,
      ⟨(fun h => by cases h), fun h => ?_⟩,
      ⟨fun _ => ⟨hov, hcond⟩, fun _ => ⟨tables, rfl⟩⟩⟩
    obtain ⟨_, hun, c, hc, hne⟩ := h
    rcases hcond with h2 | h2
    · exact absurd hun h2
    · exact absurd (h2 c hc) hne

/-- C4, amended, at the name `bogus`: the run on a chunk with two windows
fails. -/
theorem unresolved_name_fails_only_at_a_window_witness :
    ConsumeChunks sampleExternals [sampleChunk] ["bogus"] "" = .panic :=
  (unresolved_name_fails_only_at_a_window sampleExternals [sampleChunk] ["bogus"] "").2.1.2
    ⟨(by
        rintro ⟨m, hm, ds, hds, -⟩
        rw [List.mem_singleton] at hm
        subst hm
        have hnone : kmerRegex.FindStringSubmatch "bogus".toList = none := by decide
        rw [hnone] at hds
        cases hds),
      ⟨"bogus", List.mem_singleton.2 rfl, by decide, rfl⟩,
      ⟨sampleChunk, List.mem_singleton.2 rfl, by decide⟩⟩

/-! ## What `kmerRegex` matches -/

theorem kmerRegex.matchHere_eq_some (s ds : List Char) :
    kmerRegex.matchHere s = some ds ↔ ∃ post, DigitsMER s [] ds post := by
  constructor
  · intro h
    unfold kmerRegex.matchHere at h
    split at h
    · next post heq =>
      split at h
      · cases h
      · next hne =>
        injection h with h
        subst h
        refine ⟨post, ?_, hne, fun c hc => List.mem_takeWhile_imp hc⟩
        rw [List.nil_append, ← heq, List.takeWhile_append_dropWhile]
    · cases h
  · rintro ⟨post, hs, hne, hd⟩
    rw [List.nil_append] at hs
    subst hs
    have hM : Char.isDigit 'M' = false := by decide
    have h1 : List.dropWhile Char.isDigit (ds ++ 'M' :: 'E' :: 'R' :: post) =
        'M' :: 'E' :: 'R' :: post := by
      rw [List.dropWhile_append_of_pos hd, List.dropWhile_cons]
      simp [hM]
    have h2 : List.takeWhile Char.isDigit (ds ++ 'M' :: 'E' :: 'R' :: post) = ds := by
      rw [List.takeWhile_append_of_pos hd, List.takeWhile_cons]
      simp [hM]
    unfold kmerRegex.matchHere
    rw [h1, h2]
    simp [hne]

theorem DigitsMER.of_cons {c : Char} {cs pre ds post : List Char}
    (h : DigitsMER (c :: cs) pre ds post) :
    (pre = [] ∧ DigitsMER (c :: cs) [] ds post) ∨
      ∃ pre2, pre = c :: pre2 ∧ DigitsMER cs pre2 ds post := by
  cases pre with
  | nil => exact Or.inl ⟨rfl, h⟩
  | cons p pre2 =>
    obtain ⟨hs, hne, hd⟩ := h
    simp only [List.cons_append] at hs
    injection hs with h1 h2
    subst h1
    exact Or.inr ⟨pre2, rfl, h2, hne, hd⟩

theorem DigitsMER.cons (c : Char) {cs pre ds post : List Char} (h : DigitsMER cs pre ds post) :
    DigitsMER (c :: cs) (c :: pre) ds post := by
  obtain ⟨hs, hne, hd⟩ := h
  exact ⟨by rw [hs]; rfl, hne, hd⟩

theorem kmerRegex.find_eq_none (s : List Char) :
    kmerRegex.FindStringSubmatch s = none ↔ ∀ pre ds post, ¬ DigitsMER s pre ds post := by
  induction s with
  | nil =>
    refine ⟨fun _ pre ds post h => ?_, fun _ => rfl⟩
    have := congrArg List.length h.1
    simp at this
    omega
  | cons c cs ih =>
    simp only [kmerRegex.FindStringSubmatch]
    cases hm : kmerRegex.matchHere (c :: cs) with
    | some d =>
      obtain ⟨post, hd⟩ := (kmerRegex.matchHere_eq_some _ _).1 hm
      exact ⟨(fun h => by cases h), fun h => absurd hd (h [] d post)⟩
    | none =>
      simp only
      rw [ih]
      constructor
      · intro h pre ds post hdec
        rcases hdec.of_cons with ⟨_, h0⟩ | ⟨pre2, _, h2⟩
        · have := (kmerRegex.matchHere_eq_some _ _).2 ⟨post, h0⟩
          rw [hm] at this
          cases this
        · exact h pre2 ds post h2
      · intro h pre ds post hdec
        exact h (c :: pre) ds post (hdec.cons c)

theorem kmerRegex.find_eq_some (s ds : List Char) :
    kmerRegex.FindStringSubmatch s = some ds ↔
      ∃ pre post, DigitsMER s pre ds post ∧
        ∀ pre2 ds2 post2, DigitsMER s pre2 ds2 post2 → pre.length ≤ pre2.length := by
  induction s with
  | nil =>
    refine ⟨(fun h => by cases h), ?_⟩
    rintro ⟨pre, post, h, _⟩
    have := congrArg List.length h.1
    simp at this
    omega
  | cons c cs ih =>
    simp only [kmerRegex.FindStringSubmatch]
    cases hm : kmerRegex.matchHere (c :: cs) with
    | some d =>
      obtain ⟨post, hd⟩ := (kmerRegex.matchHere_eq_some _ _).1 hm
      simp only
      constructor
      · intro h
        injection h with h
        subst h
        exact ⟨[], post, hd, fun _ _ _ _ => Nat.zero_le _⟩
      · rintro ⟨pre, post2, hdec, hmin⟩
        have hlen := hmin [] d post hd
        have hpre : pre = [] := List.eq_nil_of_length_eq_zero (Nat.le_zero.1 hlen)
        subst hpre
        have := (kmerRegex.matchHere_eq_some _ _).2 ⟨post2, hdec⟩
        rw [hm] at this
        injection this with this
        rw [this]
    | none =>
      simp only
      rw [ih]
      constructor
      · rintro ⟨pre, post, hdec, hmin⟩
        refine ⟨c :: pre, post, hdec.cons c, ?_⟩
        intro pre2 ds2 post2 h2
        rcases h2.of_cons with ⟨_, h0⟩ | ⟨pre3, rfl, h3⟩
        · have := (kmerRegex.matchHere_eq_some _ _).2 ⟨post2, h0⟩
          rw [hm] at this
          cases this
        · simpa using hmin pre3 ds2 post2 h3
      · rintro ⟨pre, post, hdec, hmin⟩
        rcases hdec.of_cons with ⟨_, h0⟩ | ⟨pre3, rfl, h3⟩
        · have := (kmerRegex.matchHere_eq_some _ _).2 ⟨post, h0⟩
          rw [hm] at this
          cases this
        · refine ⟨pre3, post, h3, ?_⟩
          intro pre2 ds2 post2 h2
          simpa using hmin (c :: pre2) ds2 post2 (h2.cons c)

theorem ConsumeChunks.classify_single (idx : Nat) (name : String) :
    ConsumeChunks.classify idx [name] =
      match kmerRegex.FindStringSubmatch name.toList with
      | some ds =>
        match Atoi ds with
        | some k => .ok ([], [(idx + 3, k)])
        | none => .fatal
      | none => .ok ([(idx + 3, name)], []) := by
  simp only [ConsumeChunks.classify]
  split
  · next ds _ =>
    cases Atoi ds <;> simp only [checkError, Outcome.bind]
  · simp only [Outcome.bind]

theorem ConsumeChunks.classify_kmer_iff (name : String) (k : Int) :
    ConsumeChunks.classify 0 [name] = .ok ([], [(3, k)]) ↔
      ∃ ds, kmerRegex.FindStringSubmatch name.toList = some ds ∧
        digitsValue ds < 2 ^ 63 ∧ k = (digitsValue ds : Int) := by
  rw [ConsumeChunks.classify_single]
  cases hfind : kmerRegex.FindStringSubmatch name.toList with
  | none =>
    simp only
    constructor
    · intro h
      injection h with h
      injection h with h1 h2
      cases h1
    · rintro ⟨ds, h, _⟩
      cases h
  | some ds =>
    simp only [Atoi]
    by_cases hlt : digitsValue ds < 2 ^ 63
    · rw [if_pos hlt]
      simp only
      constructor
      · intro h
        injection h with h
        injection h with h1 h2
        injection h2 with h3 h4
        injection h3 with h5 h6
        exact ⟨ds, rfl, hlt, h6.symm⟩
      · rintro ⟨ds2, h, _, hk⟩
        injection h with h
        subst h
        rw [hk]
    · rw [if_neg hlt]
      simp only
      constructor
      · intro h
        cases h
      · rintro ⟨ds2, h, hlt2, _⟩
        injection h with h
        subst h
        exact absurd hlt2 hlt

theorem ConsumeChunks.classify_metric_iff (name : String) :
    ConsumeChunks.classify 0 [name] = .ok ([(3, name)], []) ↔
      kmerRegex.FindStringSubmatch name.toList = none := by
  rw [ConsumeChunks.classify_single]
  cases hfind : kmerRegex.FindStringSubmatch name.toList with
  | none => simp
  | some ds =>
    simp only [Atoi]
    by_cases hlt : digitsValue ds < 2 ^ 63
    · rw [if_pos hlt]
      simp
    · rw [if_neg hlt]
      simp

/-- C5, as the claim states it, fails: `x4MERy` and `4MERS` are not a decimal
integer followed by `MER`, yet `ConsumeChunks` puts both in `kmerCols` with
k = 4; only `4mer` goes to `metricCols`. -/
theorem name_containing_digits_MER_is_kmer :
    ConsumeChunks.classify 0 ["x4MERy", "4MERS", "4mer"] =
      .ok ([(5, "4mer")], [(3, 4), (4, 4)]) := by
  decide

/-- C5, amended: `ConsumeChunks` classifies a name as a k-mer column of size k
exactly when the name contains, anywhere in it, a non-empty run of decimal
digits followed at once by the letters `MER` (case-sensitive), k being the
value of the digits of the leftmost such place, which must fit `int`; so a
whole name made of digits and `MER` gets the value of its digits. A name is
treated as a registry metric name exactly when it contains no such place. -/
theorem kmer_name_iff_digits_MER_inside (name : String) :
    (∀ k : Int, ConsumeChunks.classify 0 [name] = .ok ([], [(3, k)]) ↔
      ∃ pre ds post, DigitsMER name.toList pre ds post ∧
        (∀ pre2 ds2 post2, DigitsMER name.toList pre2 ds2 post2 →
          pre.length ≤ pre2.length) ∧
        digitsValue ds < 2 ^ 63 ∧ k = (digitsValue ds : Int)) ∧
    (ConsumeChunks.classify 0 [name] = .ok ([(3, name)], []) ↔
      ∀ pre ds post, ¬ DigitsMER name.toList pre ds post) ∧
    (∀ ds, DigitsMER name.toList [] ds [] → digitsValue ds < 2 ^ 63 →
      ConsumeChunks.classify 0 [name] = .ok ([], [(3, (digitsValue ds : Int))])) := by
  have hkmer : ∀ k : Int, ConsumeChunks.classify 0 [name] = .ok ([], [(3, k)]) ↔
      ∃ pre ds post, DigitsMER name.toList pre ds post ∧
        (∀ pre2 ds2 post2, DigitsMER name.toList pre2 ds2 post2 →
          pre.length ≤ pre2.length) ∧
        digitsValue ds < 2 ^ 63 ∧ k = (digitsValue ds : Int) := by
    intro k
    rw [ConsumeChunks.classify_kmer_iff]
    constructor
    · rintro ⟨ds, hfind, hlt, hk⟩
      obtain ⟨pre, post, hdec, hmin⟩ := (kmerRegex.find_eq_some _ _).1 hfind
      exact ⟨pre, ds, post, hdec, hmin, hlt, hk⟩
    · rintro ⟨pre, ds, post, hdec, hmin, hlt, hk⟩
      exact ⟨ds, (kmerRegex.find_eq_some _ _).2 ⟨pre, post, hdec, hmin⟩, hlt, hk⟩
  refine ⟨hkmer, ?_, ?_⟩
  · rw [ConsumeChunks.classify_metric_iff, kmerRegex.find_eq_none]
  · intro ds hdec hlt
    exact (hkmer _).2 ⟨[], ds, [], hdec, fun _ _ _ _ => Nat.zero_le _, hlt, rfl⟩

/-- C5, amended, at the names `4MER`, where the place is the whole name, and
`4mer`, which holds no such place. -/
theorem kmer_name_iff_digits_MER_inside_witness :
    ConsumeChunks.classify 0 ["4MER"] = .ok ([], [(3, 4)]) ∧
    ConsumeChunks.classify 0 ["4mer"] = .ok ([(3, "4mer")], []) :=
  ⟨(kmer_name_iff_digits_MER_inside "4MER").2.2 ['4']
      ⟨rfl, (by decide), (by decide)⟩ (by decide),
    (kmer_name_iff_digits_MER_inside "4mer").2.1.2
      ((kmerRegex.find_eq_none _).1 (by decide))⟩

/-! ## The arithmetic progression of `MakeRange` -/

theorem MakeRange.count_step (start stop step : Int) (hstep : 0 < step) (hle : start ≤ stop) :
    ((stop - start) / step + 1).toNat = ((stop - (start + step)) / step + 1).toNat + 1 := by
  have h0 : step ≠ 0 := by omega
  have h1 : (stop - (start + step)) / step = (stop - start) / step - 1 := by
    have := Int.add_mul_ediv_right (stop - start) (-1) h0
    rw [show stop - (start + step) = stop - start + -1 * step by ring, this]
    ring
  have h2 : 0 ≤ (stop - start) / step := Int.ediv_nonneg (by omega) (by omega)
  rw [h1]
  omega

theorem MakeRange.count_zero (start stop step : Int) (hstep : 0 < step) (hlt : stop < start) :
    ((stop - start) / step + 1).toNat = 0 := by
  have := Int.ediv_neg' (show stop - start < 0 by omega) hstep
  omega

theorem MakeRange.loop_eq (stop step : Int) (hstep : 0 < step) (hhi : stop + step < 2 ^ 63) :
    ∀ (fuel : Nat) (start : Int) (arr l : List Int), -2 ^ 63 ≤ start →
      MakeRange.loop stop step fuel start arr = .ok l →
      l = arr ++ (List.range ((stop - start) / step + 1).toNat).map
        (fun i : Nat => start + (i : Int) * step) := by
  intro fuel
  induction fuel with
  | zero =>
    intro start arr l hlo h
    simp only [MakeRange.loop] at h
    split at h
    · cases h
    · next hn =>
      injection h with h
      rw [MakeRange.count_zero start stop step hstep (by omega)]
      simp [h]
  | succ n ih =>
    intro start arr l hlo h
    simp only [MakeRange.loop] at h
    split at h
    · next hle =>
      have hw : wrap (start + step) = start + step := wrap_eq (by omega) (by omega)
      rw [hw] at h
      rw [ih _ _ _ (by omega) h, MakeRange.count_step start stop step hstep hle,
        List.range_succ_eq_map, List.append_assoc]
      congr 1
      simp only [List.singleton_append, List.map_cons, List.map_map, Nat.cast_zero, zero_mul,
        add_zero, List.cons.injEq, true_and]
      apply List.map_congr_left
      intro i _
      simp only [Function.comp, Nat.succ_eq_add_one, Nat.cast_add, Nat.cast_one]
      ring
    · next hn =>
      injection h with h
      rw [MakeRange.count_zero start stop step hstep (by omega)]
      simp [h]

theorem MakeRange_eq {fuel : Nat} {start stop step : Int} {l : List Int} (hstep : 0 < step)
    (hlo : -2 ^ 63 ≤ start) (hhi : stop + step < 2 ^ 63)
    (h : MakeRange fuel start stop step = .ok l) :
    l = (List.range ((stop - start) / step + 1).toNat).map
      (fun i : Nat => start + (i : Int) * step) := by
  unfold MakeRange at h
  split at h
  · cases h
  · split at h
    · cases h
    · simpa using MakeRange.loop_eq stop step hstep hhi _ _ _ _ hlo h

/-- C16 (amended): for `step > 0` and `start ≤ end` with `start` an `int`, and
`end + step` and `end - start + 1` below `2^63`, `MakeRange` returns, and what
it returns is the list `start, start+step, start+2*step, ...` of length
`(end-start)/step + 1` (the division of Go): it begins with `start`, each
element is the one before plus `step`, every element is at most `end`, and the
last one is above `end - step`. -/
theorem MakeRange_progression (start stop step : Int) (hstep : 0 < step) (hle : start ≤ stop)
    (hlo : -2 ^ 63 ≤ start) (hhi : stop + step < 2 ^ 63) (hdiff : stop - start + 1 < 2 ^ 63) :
    (∃ fuel l, MakeRange fuel start stop step = .ok l) ∧
    ∀ fuel l, MakeRange fuel start stop step = .ok l →
      l = (List.range l.length).map (fun i : Nat => start + (i : Int) * step) ∧
      (l.length : Int) = (stop - start).tdiv step + 1 ∧
      l.head? = some start ∧
      List.Chain' (fun a b => b = a + step) l ∧
      (∀ x ∈ l, x ≤ stop) ∧
      ∀ x ∈ l.getLast?, stop - step < x := by
  constructor
  · obtain ⟨l, hl⟩ := @MakeRange_terminates (stop - start + 1).toNat start stop step hstep hle
      hlo hhi hdiff (le_refl _)
    exact ⟨_, l, hl⟩
  · intro fuel l h
    have hmem := MakeRange_mem hstep hlo hhi h
    have hq : 0 ≤ (stop - start) / step := Int.ediv_nonneg (by omega) (by omega)
    obtain ⟨m, hm⟩ : ∃ m : Nat, ((stop - start) / step + 1).toNat = m + 1 :=
      ⟨((stop - start) / step).toNat, by omega⟩
    have hl := MakeRange_eq hstep hlo hhi h
    rw [hm] at hl
    have hlen : l.length = m + 1 := by rw [hl]; simp
    refine ⟨by rw [hlen]; exact hl, ?_, ?_, ?_, fun x hx => (hmem x hx).2, ?_⟩
    · rw [hlen, Int.tdiv_eq_ediv (by omega) (by omega)]
      omega
    · rw [hl, List.range_succ_eq_map]
      simp
    · rw [hl, List.chain'_map, List.chain'_range_succ]
      intro i _
      simp only [Nat.succ_eq_add_one, Nat.cast_add, Nat.cast_one]
      ring
    · intro x hx
      rw [hl, List.range_succ, List.map_append, List.map_singleton, List.getLast?_concat] at hx
      cases hx
      have h1 := Int.lt_ediv_add_one_mul_self (stop - start) hstep
      have h2 : ((m : Int) + 1) = (stop - start) / step + 1 := by omega
      rw [← h2] at h1
      have h3 : ((m : Int) + 1) * step = (m : Int) * step + step := by ring
      omega

/-- C16, at `MakeRange(3, 20, 5)`, which is `3, 8, 13, 18`. -/
theorem MakeRange_progression_witness :
    ((0 : Int) < 5 ∧ (3 : Int) ≤ 20 ∧ -2 ^ 63 ≤ (3 : Int) ∧ (20 : Int) + 5 < 2 ^ 63 ∧
      (20 : Int) - 3 + 1 < 2 ^ 63) ∧ MakeRange 4 3 20 5 = .ok [3, 8, 13, 18] ∧
    ([3, 8, 13, 18] =
        (List.range [(3 : Int), 8, 13, 18].length).map (fun i : Nat => 3 + (i : Int) * 5) ∧
      ([(3 : Int), 8, 13, 18].length : Int) = (20 - 3 : Int).tdiv 5 + 1 ∧
      [(3 : Int), 8, 13, 18].head? = some 3 ∧
      List.Chain' (fun a b => b = a + 5) [(3 : Int), 8, 13, 18] ∧
      (∀ x ∈ [(3 : Int), 8, 13, 18], x ≤ 20) ∧
      ∀ x ∈ [(3 : Int), 8, 13, 18].getLast?, 20 - 5 < x) :=
  ⟨by decide, by decide,
    (MakeRange_progression 3 20 5 (by decide) (by decide) (by decide) (by decide)
      (by decide)).2 4 [3, 8, 13, 18] (by decide)⟩

/-- C16 (counterexample): `MakeRange(1, 1, 2^63 - 1)` has `step > 0` and
`start ≤ end`, and it returns the three elements `1, -2^63, -1`: the sum
`start += step` wraps below `end` twice. The claim gives the one-element list
`[1]`. -/
theorem MakeRange_wraps_past_end :
    MakeRange 3 1 1 9223372036854775807 = .ok [1, -9223372036854775808, -1] ∧
    ((1 : Int) - 1).tdiv 9223372036854775807 + 1 = 1 := by
  decide

/-- C20: `MakeRange(10, 0, 1)` has `start > end` and `step > 0`, and it panics
for every fuel: the capacity `1 + (0-10)/1` handed to `make` is -9. -/
theorem MakeRange_negative_capacity (fuel : Nat) :
    (1 + ((0 : Int) - 10).tdiv 1 = -9) ∧ MakeRange fuel 10 0 1 = .panic := by
  refine ⟨by decide, ?_⟩
  unfold MakeRange
  rw [if_neg (by decide), if_pos (by decide)]

/-! ## The windows of a chunk -/

/-- What the loop body puts in each chunk of a carving. -/
theorem Carved.fields {gas : Nat} {rec : Record} {ws st cl L : Int}
    (hcl : ws ≤ cl) {b : Int} {cs : List Chunk}
    (h : Carved gas rec ws st cl L b cs) :
    ∀ c ∈ cs, c.ID = rec.ID ∧ c.wSize = ws ∧ c.wStride = st ∧
      c.Seq = SubSeq rec.Seq c.BpStart c.BpEnd ∧
      0 ≤ c.BpEnd - c.BpStart - (ws - 1) ∧
      MakeRange gas 0 (c.BpEnd - c.BpStart - (ws - 1)) st = .ok c.Starts := by
  induction h with
  | stop b h => simp
  | step b starts rest hlt hr hrest ih =>
    intro c hc
    rcases List.mem_cons.1 hc with rfl | hc
    · refine ⟨rfl, rfl, rfl, rfl, ?_, hr⟩
      simp only
      unfold MinInt
      split <;> omega
    · exact ih c hc

/-- The number of windows of a chunk of a carving with chunks of `k` windows. -/
theorem Carved.starts {gas : Nat} {rec : Record} {ws st k L : Int}
    (hw : 1 ≤ ws) (hs : 1 ≤ st) (hk : 1 ≤ k) (hf : Fits ws st (ws + (k - 1) * st) L)
    {b : Int} {cs : List Chunk} (hb : 1 ≤ b)
    (h : Carved gas rec ws st (ws + (k - 1) * st) L b cs) :
    ∀ c ∈ cs, c.Starts ≠ [] ∧
      c.Starts = (List.range c.Starts.length).map (fun i : Nat => (i : Int) * st) ∧
      (c.Starts.length : Int) ≤ k ∧
      ((c.Starts.length : Int) = k ↔ c.BpEnd - c.BpStart + 1 = ws + (k - 1) * st) := by
  intro c hc
  have hcl := chunkLen_ge ws st k hs hk
  obtain ⟨_, _, _, _, he, hr⟩ := h.fields hcl c hc
  obtain ⟨hb1, _, hb3, hspan, _⟩ := h.bounds hf hb c hc
  have h0 : st ≠ 0 := by omega
  have hhi : c.BpEnd - c.BpStart - (ws - 1) + st < 2 ^ 63 := by
    have := hf.hL
    have := hf.hst2
    rcases hf.hst with h1 | h1 <;> omega
  have heq := MakeRange_eq (by omega) (by omega) hhi hr
  simp only [sub_zero, zero_add] at heq
  have hq : 0 ≤ (c.BpEnd - c.BpStart - (ws - 1)) / st := Int.ediv_nonneg he (by omega)
  have hlen : (c.Starts.length : Int) = (c.BpEnd - c.BpStart - (ws - 1)) / st + 1 := by
    have := congrArg List.length heq
    simp only [List.length_map, List.length_range] at this
    omega
  have hle : (c.BpEnd - c.BpStart - (ws - 1)) / st ≤ k - 1 := by
    have := Int.ediv_le_ediv (show 0 < st by omega)
      (show c.BpEnd - c.BpStart - (ws - 1) ≤ (k - 1) * st by omega)
    rwa [Int.mul_ediv_cancel _ h0] at this
  refine ⟨?_, ?_, by omega, ?_⟩
  · intro hnil
    rw [hnil] at hlen
    simp only [List.length_nil, Nat.cast_zero] at hlen
    omega
  · have hn : ((c.BpEnd - c.BpStart - (ws - 1)) / st + 1).toNat = c.Starts.length := by omega
    rw [hn] at heq
    exact heq
  · constructor
    · intro hfull
      have := Int.ediv_mul_le (c.BpEnd - c.BpStart - (ws - 1)) h0
      have hq2 : (c.BpEnd - c.BpStart - (ws - 1)) / st = k - 1 := by omega
      rw [hq2] at this
      omega
    · intro hfull
      have he2 : c.BpEnd - c.BpStart - (ws - 1) = (k - 1) * st := by omega
      rw [hlen, he2, Int.mul_ediv_cancel _ h0]
      omega

/-- C17 (amended): with `winSize`, `winStride`, `chunkSize` at least 1,
`winStride` an `int` and, for every record, the sum of its length and
`winSize + (chunkSize-1)*winStride` below `2^63`, `ChunkGenome` returns and
every chunk it sends holds between 1 and `chunkSize` whole windows: `Starts` is
not empty, `Starts[i] = i*winStride`, `len(Starts) ≤ chunkSize`, and
`len(Starts) = chunkSize` exactly when the chunk spans
`chunkLen = winSize + (chunkSize-1)*winStride` bases. -/
theorem windows_per_chunk (records : List Record) (ws st cs : Int)
    (hw : 1 ≤ ws) (hs : 1 ≤ st) (hc : 1 ≤ cs) (hst2 : st < 2 ^ 63)
    (hr : ∀ r ∈ records, (r.Seq.length : Int) + (ws + (cs - 1) * st) < 2 ^ 63) :
    (∃ fuel chunks, ChunkGenome fuel records ws st cs = .ok chunks) ∧
    ∀ fuel chunks, ChunkGenome fuel records ws st cs = .ok chunks →
      ∀ c ∈ chunks, c.Starts ≠ [] ∧
        c.Starts = (List.range c.Starts.length).map (fun i : Nat => (i : Int) * st) ∧
        (c.Starts.length : Int) ≤ cs ∧
        ((c.Starts.length : Int) = cs ↔ c.BpEnd - c.BpStart + 1 = ws + (cs - 1) * st) := by
  refine ⟨ChunkGenome_returns records ws st cs hw hs hc hst2 hr, ?_⟩
  intro fuel chunks h c hcm
  obtain ⟨r, hrm, g, hg, hcg⟩ := ChunkGenome_mem_record h c hcm
  exact (ChunkGenome.record_carved hw hs hc hst2 (hr r hrm) hg).starts hw hs hc
    (Fits.of_sizes hw hs hc hst2 (hr r hrm)) (le_refl 1) c hcg

/-- C17, at a record of 100 bases with windows of 10 bases, stride 5 and chunks
of 3 windows. -/
theorem windows_per_chunk_witness :
    ((1 : Int) ≤ 10 ∧ (1 : Int) ≤ 5 ∧ (1 : Int) ≤ 3 ∧ (5 : Int) < 2 ^ 63 ∧
      ∀ r ∈ [polyA 100], (r.Seq.length : Int) + (10 + (3 - 1) * 5) < 2 ^ 63) ∧
    (∃ fuel chunks, ChunkGenome fuel [polyA 100] 10 5 3 = .ok chunks) ∧
    ∀ fuel chunks, ChunkGenome fuel [polyA 100] 10 5 3 = .ok chunks →
      ∀ c ∈ chunks, c.Starts ≠ [] ∧
        c.Starts = (List.range c.Starts.length).map (fun i : Nat => (i : Int) * 5) ∧
        (c.Starts.length : Int) ≤ 3 ∧
        ((c.Starts.length : Int) = 3 ↔ c.BpEnd - c.BpStart + 1 = 10 + (3 - 1) * 5) :=
  ⟨by decide, windows_per_chunk [polyA 100] 10 5 3 (by decide) (by decide) (by decide)
    (by decide) (by decide)⟩

set_option maxRecDepth 100000 in
/-- C17 (counterexample): on a record of 30 bases with `winSize = 10`,
`winStride = 3` and `chunkSize = 6148914691236517206` the product
`(chunkSize-1) * 3 = 2^64 - 1` wraps to -1 and `chunkLen` is 9, below `winSize`.
The run returns the chunks `[1, 9]`, `[10, 18]`, `[19, 27]`, each with an empty
`Starts`: they hold no window. -/
theorem chunks_without_window_on_wrapped_chunkLen :
    ((ChunkGenome 30 [polyA 30] 10 3 6148914691236517206).bind fun chunks =>
      .ok (chunks.map fun c => (c.BpStart, c.BpEnd, c.Starts))) =
      .ok [(1, 9, []), (10, 18, []), (19, 27, [])] := by
  decide

/-! ## The number of chunks of a record -/

/-- The last chunk of a carving entered at `b` starts at `b + (n-1)*cl`, which
is below `L - ws`. -/
theorem Carved.count {gas : Nat} {rec : Record} {ws st cl L : Int} (hw : 1 ≤ ws)
    {b : Int} {cs : List Chunk} (h : Carved gas rec ws st cl L b cs) :
    cs ≠ [] → b + ((cs.length : Int) - 1) * cl < L - ws := by
  induction h with
  | stop b h => intro hne; exact absurd rfl hne
  | step b starts rest hlt hr hrest ih =>
    intro _
    cases hrest with
    | stop b2 h2 => simpa using hlt
    | step b2 starts2 rest2 hlt2 hr2 hrest2 =>
      have hmin : MinInt (b + cl - 1) L = b + cl - 1 := by
        unfold MinInt at hlt2 ⊢
        split <;> split at hlt2 <;> omega
      have := ih (by simp)
      rw [hmin] at this
      simp only [List.length_cons, Nat.cast_add, Nat.cast_one] at this ⊢
      have h3 : ((rest2.length : Int) + 1 + 1 - 1) * cl =
          cl + ((rest2.length : Int) + 1 - 1) * cl := by ring
      omega

/-- C19 (amended): with `winSize`, `winStride`, `chunkSize` at least 1,
`winStride` an `int`, `chunkLen = winSize + (chunkSize-1)*winStride` and
`L + chunkLen` below `2^63`, the chunking loop of a record of length `L` ends
(every fuel from some value on is enough), `BpStart` increases strictly from
each chunk to the next, and at most `ceil(L / chunkLen)` chunks are sent. -/
theorem chunk_loop_terminates (r : Record) (ws st cs : Int)
    (hw : 1 ≤ ws) (hs : 1 ≤ st) (hc : 1 ≤ cs) (hst2 : st < 2 ^ 63)
    (hr : (r.Seq.length : Int) + (ws + (cs - 1) * st) < 2 ^ 63) :
    (∃ N : Nat, ∀ fuel, N ≤ fuel → ∃ chunks, ChunkGenome fuel [r] ws st cs = .ok chunks) ∧
    ∀ fuel chunks, ChunkGenome fuel [r] ws st cs = .ok chunks →
      List.Chain' (fun a c : Chunk => a.BpStart < c.BpStart) chunks ∧
      (chunks.length : Int) ≤
        Int.ceil (((r.Seq.length : Int) : ℚ) / ((ws + (cs - 1) * st : Int) : ℚ)) := by
  have hr2 : ∀ q ∈ [r], (q.Seq.length : Int) + (ws + (cs - 1) * st) < 2 ^ 63 := by
    intro q hq
    rw [List.mem_singleton.1 hq]
    exact hr
  refine ⟨ChunkGenome_terminates [r] ws st cs hw hs hc hst2 hr2, ?_⟩
  intro fuel chunks h
  rw [ChunkGenome_single] at h
  have hcv := ChunkGenome.record_carved hw hs hc hst2 hr h
  have hcl := chunkLen_ge ws st cs hs hc
  refine ⟨(hcv.chain hw hcl).2.imp fun {_ _} hab => hab.2, ?_⟩
  rw [Int.le_ceil_iff]
  have hpos : (0 : ℚ) < ((ws + (cs - 1) * st : Int) : ℚ) := by
    have : (0 : Int) < ws + (cs - 1) * st := by omega
    exact_mod_cast this
  rw [lt_div_iff₀ hpos]
  by_cases hne : chunks = []
  · subst hne
    have h1 : (0 : Int) ≤ (r.Seq.length : Int) := Int.natCast_nonneg _
    have h2 : (((r.Seq.length : Int) : ℚ)) ≥ 0 := by exact_mod_cast h1
    simp only [List.length_nil, Nat.cast_zero, Int.cast_zero, zero_sub, neg_mul, one_mul]
    linarith
  · have hcount := hcv.count hw hne
    have : ((chunks.length : Int) - 1) * (ws + (cs - 1) * st) < (r.Seq.length : Int) := by omega
    exact_mod_cast this

/-- C19, at a record of 100 bases with windows of 10 bases, stride 5 and chunks
of 3 windows: `chunkLen` is 20 and at most 5 chunks are sent. -/
theorem chunk_loop_terminates_witness :
    ((1 : Int) ≤ 10 ∧ (1 : Int) ≤ 5 ∧ (1 : Int) ≤ 3 ∧ (5 : Int) < 2 ^ 63 ∧
      ((polyA 100).Seq.length : Int) + (10 + (3 - 1) * 5) < 2 ^ 63) ∧
    ChunkGenome 5 [polyA 100] 10 5 3 ≠ .outOfFuel ∧
    (∃ N : Nat, ∀ fuel, N ≤ fuel →
      ∃ chunks, ChunkGenome fuel [polyA 100] 10 5 3 = .ok chunks) ∧
    ∀ fuel chunks, ChunkGenome fuel [polyA 100] 10 5 3 = .ok chunks →
      List.Chain' (fun a c : Chunk => a.BpStart < c.BpStart) chunks ∧
      (chunks.length : Int) ≤
        Int.ceil ((((polyA 100).Seq.length : Int) : ℚ) / ((10 + (3 - 1) * 5 : Int) : ℚ)) :=
  ⟨by decide, by decide,
    chunk_loop_terminates (polyA 100) 10 5 3 (by decide) (by decide) (by decide)
      (by decide) (by decide)⟩

set_option maxRecDepth 100000 in
/-- C19 (counterexample): on a record of 100 bases with `winSize = 10`,
`winStride = 4` and `chunkSize = 2^62 + 2` the product `(chunkSize-1) * 4`
wraps to 4 and the code works with a chunk length of 14: it sends 7 chunks,
where `ceil(L / chunkLen)` with `chunkLen = winSize + (chunkSize-1)*winStride`
is 1. -/
theorem seven_chunks_where_bound_is_one :
    ((ChunkGenome 100 [polyA 100] 10 4 4611686018427387906).bind fun chunks =>
      .ok (chunks.map fun c => c.BpStart)) = .ok [1, 15, 29, 43, 57, 71, 85] ∧
    (polyA 100).Seq.length = 100 ∧
    Int.ceil (((100 : Int) : ℚ) / ((10 + (4611686018427387906 - 1) * 4 : Int) : ℚ)) = 1 := by
  refine ⟨by decide, by decide, ?_⟩
  rw [Int.ceil_eq_iff]
  norm_num

/-! ## The coordinate cells of a row -/

theorem ConsumeChunks.classify_cols_ge :
    ∀ (metrics : List String) (idx : Nat) (cols : List (Nat × String) × List (Nat × Int)),
      ConsumeChunks.classify idx metrics = .ok cols →
      (∀ p ∈ cols.1, 3 ≤ p.1) ∧ (∀ p ∈ cols.2, 3 ≤ p.1) := by
  intro metrics
  induction metrics with
  | nil =>
    intro idx cols h
    simp only [ConsumeChunks.classify] at h
    injection h with h
    subst h
    simp
  | cons field rest ih =>
    intro idx cols h
    simp only [ConsumeChunks.classify] at h
    split at h
    · obtain ⟨k, _, h⟩ := Outcome.bind_eq_ok h
      obtain ⟨cols2, hcols2, h⟩ := Outcome.bind_eq_ok h
      injection h with h
      subst h
      obtain ⟨h1, h2⟩ := ih _ _ hcols2
      refine ⟨h1, ?_⟩
      intro p hp
      rcases List.mem_cons.1 hp with rfl | hp
      · simp
      · exact h2 p hp
    · obtain ⟨cols2, hcols2, h⟩ := Outcome.bind_eq_ok h
      injection h with h
      subst h
      obtain ⟨h1, h2⟩ := ih _ _ hcols2
      refine ⟨?_, h2⟩
      intro p hp
      rcases List.mem_cons.1 hp with rfl | hp
      · simp
      · exact h1 p hp

theorem ConsumeChunks.metricLoop_get (E : Externals) (w : List Char) :
    ∀ (mc : List (Nat × String)) (row r : List String), (∀ p ∈ mc, 3 ≤ p.1) →
      ConsumeChunks.metricLoop E w mc row = .ok r → ∀ j, j < 3 → r[j]? = row[j]? := by
  intro mc
  induction mc with
  | nil =>
    intro row r _ h j _
    simp only [ConsumeChunks.metricLoop] at h
    injection h with h
    rw [h]
  | cons p rest ih =>
    intro row r hge h j hj
    obtain ⟨col, field⟩ := p
    simp only [ConsumeChunks.metricLoop] at h
    split at h
    · have hcol : 3 ≤ col := hge (col, field) (List.mem_cons_self _ _)
      rw [ih _ _ (fun q hq => hge q (List.mem_cons_of_mem _ hq)) h j hj,
        List.getElem?_set_ne (by omega)]
    · cases h

theorem ConsumeChunks.kmerLoop_get (E : Externals) (dm : String) (w : List Char) :
    ∀ (kc : List (Nat × Int)) (row : List String), (∀ p ∈ kc, 3 ≤ p.1) →
      ∀ j, j < 3 → (ConsumeChunks.kmerLoop E dm w kc row)[j]? = row[j]? := by
  intro kc
  induction kc with
  | nil => intro row _ j _; rfl
  | cons p rest ih =>
    intro row hge j hj
    obtain ⟨col, k⟩ := p
    have hcol : 3 ≤ col := hge (col, k) (List.mem_cons_self _ _)
    simp only [ConsumeChunks.kmerLoop]
    rw [ih _ (fun q hq => hge q (List.mem_cons_of_mem _ hq)) j hj,
      List.getElem?_set_ne (by omega)]

theorem ConsumeChunks.window_cells {E : Externals} {mc : List (Nat × String)}
    {kc : List (Nat × Int)} {dm : String} {c : Chunk} {row r : List String} {start : Int}
    (hmc : ∀ p ∈ mc, 3 ≤ p.1) (hkc : ∀ p ∈ kc, 3 ≤ p.1) (hrow : 3 ≤ row.length)
    (h : ConsumeChunks.window E mc kc dm c row start = .ok r) :
    r[0]? = some c.ID ∧ r[1]? = some (toString (wrap (c.BpStart + start))) ∧
      r[2]? = some (toString (MinInt (wrap (wrap (wrap (c.BpStart + start) + c.wSize) - 1)) c.BpEnd)) := by
  simp only [ConsumeChunks.window] at h
  obtain ⟨r1, h1, h⟩ := Outcome.bind_eq_ok h
  injection h with h
  subst h
  have hget : ∀ j, j < 3 →
      (ConsumeChunks.kmerLoop E dm (SubSeq c.Seq (wrap (start + 1)) (wrap (start + c.wSize))) kc r1)[j]? =
        (((row.set 0 c.ID).set 1 (toString (wrap (c.BpStart + start)))).set 2
          (toString (MinInt (wrap (wrap (wrap (c.BpStart + start) + c.wSize) - 1)) c.BpEnd)))[j]? := by
    intro j hj
    rw [ConsumeChunks.kmerLoop_get E dm _ kc r1 hkc j hj,
      ConsumeChunks.metricLoop_get E _ mc _ r1 hmc h1 j hj]
  refine ⟨?_, ?_, ?_⟩
  · rw [hget 0 (by omega), List.getElem?_set_ne (by omega), List.getElem?_set_ne (by omega),
      List.getElem?_set_self (by omega)]
  · rw [hget 1 (by omega), List.getElem?_set_ne (by omega),
      List.getElem?_set_self (by simp; omega)]
  · rw [hget 2 (by omega), List.getElem?_set_self (by simp; omega)]

theorem ConsumeChunks.windows_cells (E : Externals) (mc : List (Nat × String))
    (kc : List (Nat × Int)) (dm : String) (c : Chunk)
    (hmc : ∀ p ∈ mc, 3 ≤ p.1) (hkc : ∀ p ∈ kc, 3 ≤ p.1) :
    ∀ (starts : List Int) (data d : List (List String)),
      (∀ row ∈ data, 3 ≤ row.length) → data.length = starts.length →
      ConsumeChunks.windows E mc kc dm c data starts = .ok d →
      d.map (fun row => (row[0]?, row[1]?, row[2]?)) =
        starts.map (fun s => (some c.ID, some (toString (wrap (c.BpStart + s))),
          some (toString (MinInt (wrap (wrap (wrap (c.BpStart + s) + c.wSize) - 1)) c.BpEnd)))) := by
  intro starts
  induction starts with
  | nil =>
    intro data d _ hlen h
    have hd : data = [] := List.eq_nil_of_length_eq_zero (by simpa using hlen)
    subst hd
    simp only [ConsumeChunks.windows] at h
    injection h with h
    subst h
    rfl
  | cons start starts ih =>
    intro data d hrows hlen h
    cases data with
    | nil => simp at hlen
    | cons row data =>
      simp only [ConsumeChunks.windows] at h
      obtain ⟨r, hr, h⟩ := Outcome.bind_eq_ok h
      obtain ⟨d2, hd2, h⟩ := Outcome.bind_eq_ok h
      injection h with h
      subst h
      obtain ⟨h0, h1, h2⟩ := ConsumeChunks.window_cells hmc hkc
        (hrows row (List.mem_cons_self _ _)) hr
      simp only [List.map_cons, h0, h1, h2]
      rw [ih data d2 (fun x hx => hrows x (List.mem_cons_of_mem _ hx)) (by simpa using hlen) hd2]

theorem ConsumeChunks.loop_cells (E : Externals) (header : List String) (n : Nat)
    (mc : List (Nat × String)) (kc : List (Nat × Int)) (dm : String)
    (hmc : ∀ p ∈ mc, 3 ≤ p.1) (hkc : ∀ p ∈ kc, 3 ≤ p.1) :
    ∀ (chunks : List Chunk) (tables : List ChunkResult),
      ConsumeChunks.loop E header (3 + n) mc kc dm chunks = .ok tables →
      List.Forall₂ (fun (c : Chunk) (t : ChunkResult) =>
        t.Data.map (fun row => (row[0]?, row[1]?, row[2]?)) =
          c.Starts.map (fun s => (some c.ID, some (toString (wrap (c.BpStart + s))),
            some (toString (MinInt (wrap (wrap (wrap (c.BpStart + s) + c.wSize) - 1))
            c.BpEnd))))) chunks tables := by
  intro chunks
  induction chunks with
  | nil =>
    intro tables h
    simp only [ConsumeChunks.loop] at h
    injection h with h
    subst h
    exact List.Forall₂.nil
  | cons c rest ih =>
    intro tables h
    simp only [ConsumeChunks.loop] at h
    obtain ⟨t, ht, h⟩ := Outcome.bind_eq_ok h
    obtain ⟨ts, hts, h⟩ := Outcome.bind_eq_ok h
    injection h with h
    subst h
    refine List.Forall₂.cons ?_ (ih ts hts)
    simp only [ConsumeChunks.chunk] at ht
    obtain ⟨data, hdata, ht⟩ := Outcome.bind_eq_ok ht
    injection ht with ht
    subst ht
    exact ConsumeChunks.windows_cells E mc kc dm c hmc hkc c.Starts _ data
      (by
        intro row hrow
        rw [Build2dSlice, List.mem_replicate] at hrow
        rw [hrow.2, List.length_replicate]
        omega)
      (by simp [Build2dSlice]) hdata

/-- The coordinate cells of the tables of a completed run of `ConsumeChunks`. -/
theorem ConsumeChunks_cells {E : Externals} {chunks : List Chunk} {metrics : List String}
    {dm : String} {tables : List ChunkResult}
    (h : ConsumeChunks E chunks metrics dm = .ok tables) :
    List.Forall₂ (fun (c : Chunk) (t : ChunkResult) =>
      t.Data.map (fun row => (row[0]?, row[1]?, row[2]?)) =
        c.Starts.map (fun s => (some c.ID, some (toString (wrap (c.BpStart + s))),
          some (toString (MinInt (wrap (wrap (wrap (c.BpStart + s) + c.wSize) - 1))
            c.BpEnd))))) chunks tables := by
  simp only [ConsumeChunks] at h
  obtain ⟨cols, hcols, h2⟩ := Outcome.bind_eq_ok h
  obtain ⟨hmc, hkc⟩ := ConsumeChunks.classify_cols_ge metrics 0 cols hcols
  exact ConsumeChunks.loop_cells E _ _ cols.1 cols.2 dm hmc hkc chunks tables h2

/-! ## The order of the window starts -/

theorem windowStarts_cons (c : Chunk) (rest : List Chunk) :
    windowStarts (c :: rest) = c.Starts.map (fun s => c.BpStart + s) ++ windowStarts rest := by
  simp [windowStarts]

theorem mem_windowStarts {y : Int} {cs : List Chunk} (h : y ∈ windowStarts cs) :
    ∃ c ∈ cs, ∃ s ∈ c.Starts, y = c.BpStart + s := by
  induction cs with
  | nil => simp [windowStarts] at h
  | cons c rest ih =>
    rw [windowStarts_cons, List.mem_append] at h
    rcases h with h | h
    · obtain ⟨s, hs, rfl⟩ := List.mem_map.1 h
      exact ⟨c, List.mem_cons_self _ _, s, hs, rfl⟩
    · obtain ⟨c2, hc2, s, hs, hy⟩ := ih h
      exact ⟨c2, List.mem_cons_of_mem _ hc2, s, hs, hy⟩

theorem MakeRange_pairwise {fuel : Nat} {start stop step : Int} {l : List Int}
    (hstep : 0 < step) (hlo : -2 ^ 63 ≤ start) (hhi : stop + step < 2 ^ 63)
    (h : MakeRange fuel start stop step = .ok l) :
    List.Pairwise (fun a b => a < b) l := by
  rw [MakeRange_eq hstep hlo hhi h, List.pairwise_map]
  refine (List.pairwise_lt_range _).imp ?_
  intro i j hij
  have h1 : (i : Int) < (j : Int) := by exact_mod_cast hij
  have h2 : (i : Int) * step < (j : Int) * step := by
    exact Int.mul_lt_mul_of_pos_right h1 hstep
  omega

/-- The window starts of a carving increase strictly. -/
theorem Carved.increasing {gas : Nat} {rec : Record} {ws st cl L : Int}
    (hf : Fits ws st cl L) {b : Int} {cs : List Chunk}
    (h : Carved gas rec ws st cl L b cs) (hb : 1 ≤ b) :
    List.Pairwise (fun a c => a < c) (windowStarts cs) := by
  have hw := hf.hw
  have hs := hf.hs
  have hcl := hf.hcl
  have hL := hf.hL
  have hst2 := hf.hst2
  induction h with
  | stop b h => simp [windowStarts]
  | step b starts rest hlt hr hrest ih =>
    have hend : b ≤ MinInt (b + cl - 1) L ∧ MinInt (b + cl - 1) L ≤ L ∧
        MinInt (b + cl - 1) L ≤ b + cl - 1 := by
      unfold MinInt
      split <;> omega
    have hhi : MinInt (b + cl - 1) L - b - (ws - 1) + st < 2 ^ 63 := by
      rcases hf.hst with h1 | h1 <;> omega
    rw [windowStarts_cons, List.pairwise_append]
    refine ⟨?_, ih (by omega), ?_⟩
    · rw [List.pairwise_map]
      exact (MakeRange_pairwise (by omega) (by omega) hhi hr).imp fun hab => by omega
    · intro a ha y hy
      obtain ⟨s, hsm, rfl⟩ := List.mem_map.1 ha
      obtain ⟨c2, hc2, s2, hs2, rfl⟩ := mem_windowStarts hy
      have h1 := MakeRange_mem (by omega) (by omega) hhi hr s hsm
      obtain ⟨h2, _, _, _, h3⟩ := hrest.bounds hf (by omega) c2 hc2
      have h4 := (h3 s2 hs2).1
      simp only at h1 ⊢
      omega

theorem ConsumeChunks_returns {E : Externals} {metrics : List String}
    (hall : ∀ m ∈ metrics, ¬ Overflows m ∧ ¬ Unresolved E m) (chunks : List Chunk)
    (dm : String) : ∃ tables, ConsumeChunks E chunks metrics dm = .ok tables := by
  rcases ConsumeChunks_cases E chunks metrics dm with
    ⟨⟨m, hm, hov⟩, _⟩ | ⟨_, ⟨m, hm, hun⟩, _, _⟩ | ⟨_, _, h⟩
  · exact absurd hov (hall m hm).1
  · exact absurd hun (hall m hm).2
  · exact h

theorem start_column_flatten :
    ∀ {chunks : List Chunk} {tables : List ChunkResult},
      List.Forall₂ (fun (c : Chunk) (t : ChunkResult) =>
        t.Data.map (fun row => row[1]?) =
          c.Starts.map (fun s => some (toString (c.BpStart + s)))) chunks tables →
      (tables.map fun t => t.Data.map fun row => row[1]?).flatten =
        (windowStarts chunks).map (fun x => some (toString x)) := by
  intro chunks tables h
  induction h with
  | nil => simp [windowStarts]
  | cons hct _ ih =>
    rw [windowStarts_cons, List.map_cons, List.flatten_cons, ih, hct, List.map_append,
      List.map_map]
    rfl

/-- No sum of the body of the window loop wraps when the window lies inside a
chunk that ends below `2^63 - 1`. -/
theorem ConsumeChunks.window_no_wrap {B E s w : Int} (hB : 1 ≤ B) (hs : 0 ≤ s) (hw : 1 ≤ w)
    (hfit : B + s + w - 1 ≤ E) (hE : E + 1 < 2 ^ 63) :
    wrap (B + s) = B + s ∧ wrap (wrap (wrap (B + s) + w) - 1) = B + s + w - 1 ∧
      wrap (s + 1) = s + 1 ∧ wrap (s + w) = s + w := by
  have h1 : wrap (B + s) = B + s := wrap_eq (by omega) (by omega)
  have h2 : wrap (B + s + w) = B + s + w := wrap_eq (by omega) (by omega)
  have h3 : wrap (B + s + w - 1) = B + s + w - 1 := wrap_eq (by omega) (by omega)
  have h4 : wrap (s + 1) = s + 1 := wrap_eq (by omega) (by omega)
  have h5 : wrap (s + w) = s + w := wrap_eq (by omega) (by omega)
  rw [h1, h2, h3, h4, h5]
  exact ⟨rfl, rfl, rfl, rfl⟩

/-- C11 (amended): with `winSize`, `winStride`, `chunkSize` at least 1,
`winStride` an `int` and the sum of the record length and
`winSize + (chunkSize-1)*winStride` below `2^63`, the window starts
`BpStart + s` of the chunks of a record, chunk after chunk, increase strictly;
in every table `ConsumeChunks` builds from these chunks, row `i` carries in its
`start` cell the text of `BpStart + Starts[i]`, so the `start` cells of all the
rows, table after table, are the texts of these increasing numbers. Both stages
return, the second one whenever every requested name can be resolved. -/
theorem start_column_increasing (r : Record) (ws st cs : Int)
    (hw : 1 ≤ ws) (hs : 1 ≤ st) (hc : 1 ≤ cs) (hst2 : st < 2 ^ 63)
    (hr : (r.Seq.length : Int) + (ws + (cs - 1) * st) < 2 ^ 63)
    (E : Externals) (metrics : List String) (dm : String) :
    (∃ fuel chunks, ChunkGenome fuel [r] ws st cs = .ok chunks) ∧
    ∀ fuel chunks, ChunkGenome fuel [r] ws st cs = .ok chunks →
      List.Pairwise (fun a b => a < b) (windowStarts chunks) ∧
      ((∀ m ∈ metrics, ¬ Overflows m ∧ ¬ Unresolved E m) →
        ∃ tables, ConsumeChunks E chunks metrics dm = .ok tables) ∧
      ∀ tables, ConsumeChunks E chunks metrics dm = .ok tables →
        List.Forall₂ (fun (c : Chunk) (t : ChunkResult) =>
          t.Data.map (fun row => row[1]?) =
            c.Starts.map (fun s => some (toString (c.BpStart + s)))) chunks tables ∧
        (tables.map fun t => t.Data.map fun row => row[1]?).flatten =
          (windowStarts chunks).map (fun x => some (toString x)) := by
  have hr2 : ∀ q ∈ [r], (q.Seq.length : Int) + (ws + (cs - 1) * st) < 2 ^ 63 := by
    intro q hq
    rw [List.mem_singleton.1 hq]
    exact hr
  refine ⟨ChunkGenome_returns [r] ws st cs hw hs hc hst2 hr2, ?_⟩
  intro fuel chunks h
  rw [ChunkGenome_single] at h
  have hf := Fits.of_sizes hw hs hc hst2 hr
  have hcv := ChunkGenome.record_carved hw hs hc hst2 hr h
  refine ⟨hcv.increasing hf (le_refl 1), fun hall => ConsumeChunks_returns hall chunks dm, ?_⟩
  intro tables ht
  have hcells : List.Forall₂ (fun (c : Chunk) (t : ChunkResult) =>
      t.Data.map (fun row => row[1]?) =
        c.Starts.map (fun s => some (toString (c.BpStart + s)))) chunks tables := by
    refine (forall₂_with_mem (ConsumeChunks_cells ht)).imp ?_
    intro c t hct
    obtain ⟨hcm, hct⟩ := hct
    have := congrArg (List.map fun x : Option String × Option String × Option String => x.2.1)
      hct
    have h2 : t.Data.map (fun row => row[1]?) =
        c.Starts.map (fun s => some (toString (wrap (c.BpStart + s)))) := by
      simpa [List.map_map, Function.comp] using this
    rw [h2]
    apply List.map_congr_left
    intro s hsm
    obtain ⟨hb1, _, hb3, _, hwin⟩ := hcv.bounds hf (le_refl 1) c hcm
    have hlen : (0 : Int) ≤ (r.Seq.length : Int) := Int.natCast_nonneg _
    have hcl := hf.hcl
    rw [(ConsumeChunks.window_no_wrap hb1 (hwin s hsm).1 hw (hwin s hsm).2 (by omega)).1]
  exact ⟨hcells, start_column_flatten hcells⟩

/-- C11, at a record of 100 bases with windows of 10 bases, stride 5, chunks
of 3 windows and the metric `GC`. -/
theorem start_column_increasing_witness :
    ((1 : Int) ≤ 10 ∧ (1 : Int) ≤ 5 ∧ (1 : Int) ≤ 3 ∧ (5 : Int) < 2 ^ 63 ∧
      ((polyA 100).Seq.length : Int) + (10 + (3 - 1) * 5) < 2 ^ 63) ∧
    (∃ fuel chunks, ChunkGenome fuel [polyA 100] 10 5 3 = .ok chunks) ∧
    ∀ fuel chunks, ChunkGenome fuel [polyA 100] 10 5 3 = .ok chunks →
      List.Pairwise (fun a b => a < b) (windowStarts chunks) ∧
      ((∀ m ∈ ["GC"], ¬ Overflows m ∧ ¬ Unresolved sampleExternals m) →
        ∃ tables, ConsumeChunks sampleExternals chunks ["GC"] "" = .ok tables) ∧
      ∀ tables, ConsumeChunks sampleExternals chunks ["GC"] "" = .ok tables →
        List.Forall₂ (fun (c : Chunk) (t : ChunkResult) =>
          t.Data.map (fun row => row[1]?) =
            c.Starts.map (fun s => some (toString (c.BpStart + s)))) chunks tables ∧
        (tables.map fun t => t.Data.map fun row => row[1]?).flatten =
          (windowStarts chunks).map (fun x => some (toString x)) :=
  ⟨by decide, start_column_increasing (polyA 100) 10 5 3 (by decide) (by decide) (by decide)
    (by decide) (by decide) sampleExternals ["GC"] ""⟩

set_option maxRecDepth 100000 in
/-- C11 (counterexample): on a record of 5 bases with `winSize = 3`,
`winStride = 2^63 - 1` and `chunkSize = 4`, where `chunkLen` wraps to `-2^63`,
the first two chunks sent are `[1, -2^63]` and `[-2^63 + 1, 0]`, each with
`Starts = [0]`: the window starts `BpStart + s`, which `ConsumeChunks` writes in
the `start` cells, are 1 and then `-2^63 + 1`, so they do not increase. -/
theorem window_starts_not_increasing_on_wrapped_chunkLen :
    windowStarts (ChunkGenome.recordSent 2 (polyA 5) 3 9223372036854775807 4) =
      [1, -9223372036854775807] ∧
    ¬ List.Pairwise (fun a b : Int => a < b)
      (windowStarts (ChunkGenome.recordSent 2 (polyA 5) 3 9223372036854775807 4)) := by
  decide

/-! ## The bases of a window -/

theorem SubSeq_length (S : List Char) (a b : Int) (ha : 1 ≤ a) (hab : a ≤ b + 1)
    (hb : b ≤ (S.length : Int)) : ((SubSeq S a b).length : Int) = b - a + 1 := by
  simp only [SubSeq, List.length_take, List.length_drop]
  omega

theorem SubSeq_SubSeq (S : List Char) (a b s w : Int) (ha : 1 ≤ a) (hs : 0 ≤ s)
    (hfit : a + s + w - 1 ≤ b) :
    SubSeq (SubSeq S a b) (s + 1) (s + w) = SubSeq S (a + s) (a + s + w - 1) := by
  simp only [SubSeq]
  rw [List.drop_take, List.take_take, List.drop_drop]
  have h1 : (a - 1).toNat + (s + 1 - 1).toNat = (a + s - 1).toNat := by omega
  have h2 : min (s + w - (s + 1) + 1).toNat ((b - a + 1).toNat - (s + 1 - 1).toNat) =
      (a + s + w - 1 - (a + s) + 1).toNat := by omega
  rw [h1, h2]

theorem forall₂_imp_of_mem {α β : Type} {R S : α → β → Prop} :
    ∀ {l₁ : List α} {l₂ : List β}, List.Forall₂ R l₁ l₂ →
      (∀ a ∈ l₁, ∀ b, R a b → S a b) → List.Forall₂ S l₁ l₂ := by
  intro l₁ l₂ h
  induction h with
  | nil => intro _; exact List.Forall₂.nil
  | cons hab _ ih =>
    intro himp
    exact List.Forall₂.cons (himp _ (List.mem_cons_self _ _) _ hab)
      (ih fun a ha b hr => himp a (List.mem_cons_of_mem _ ha) b hr)

/-- The facts on one window of one chunk of a record. -/
theorem ChunkGenome.record_window {fuel : Nat} {r : Record} {ws st cs : Int}
    (hw : 1 ≤ ws) (hs : 1 ≤ st) (hc : 1 ≤ cs) (hst2 : st < 2 ^ 63)
    (hr : (r.Seq.length : Int) + (ws + (cs - 1) * st) < 2 ^ 63) {g : List Chunk}
    (hg : ChunkGenome.record fuel r ws st cs = .ok g) :
    ∀ c ∈ g, c.ID = r.ID ∧ (c.wSize = ws ∧ 1 ≤ c.BpStart ∧ c.BpEnd + 1 < 2 ^ 63) ∧
      ∀ s ∈ c.Starts, (0 ≤ s ∧ c.BpStart + s + ws - 1 ≤ c.BpEnd) ∧
      MinInt (c.BpStart + s + c.wSize - 1) c.BpEnd = c.BpStart + s + ws - 1 ∧
      (1 ≤ s + 1 ∧ s + c.wSize ≤ (c.Seq.length : Int)) ∧
      (1 ≤ c.BpStart + s ∧ c.BpStart + s + ws - 1 ≤ (r.Seq.length : Int)) ∧
      SubSeq c.Seq (s + 1) (s + c.wSize) =
        SubSeq r.Seq (c.BpStart + s) (c.BpStart + s + ws - 1) ∧
      ((SubSeq c.Seq (s + 1) (s + c.wSize)).length : Int) = ws := by
  intro c hcm
  have hcl := chunkLen_ge ws st cs hs hc
  have hcv := ChunkGenome.record_carved hw hs hc hst2 hr hg
  obtain ⟨hid, hwsz, _, hseq, _, _⟩ := hcv.fields hcl c hcm
  obtain ⟨h1, h2, h3, _, hfit⟩ := hcv.bounds (Fits.of_sizes hw hs hc hst2 hr) (le_refl 1) c hcm
  refine ⟨hid, ⟨hwsz, h1, by omega⟩, ?_⟩
  intro s hsm
  obtain ⟨hs0, hsfit⟩ := hfit s hsm
  have hlen : (c.Seq.length : Int) = c.BpEnd - c.BpStart + 1 := by
    rw [hseq]
    exact SubSeq_length r.Seq c.BpStart c.BpEnd (by omega) (by omega) h3
  have hsub : SubSeq c.Seq (s + 1) (s + c.wSize) =
      SubSeq r.Seq (c.BpStart + s) (c.BpStart + s + ws - 1) := by
    rw [hwsz, hseq]
    exact SubSeq_SubSeq r.Seq c.BpStart c.BpEnd s ws (by omega) hs0 hsfit
  refine ⟨⟨hs0, hsfit⟩, ?_, ⟨by omega, by omega⟩, ⟨by omega, by omega⟩, hsub, ?_⟩
  · rw [hwsz]
    unfold MinInt
    split <;> omega
  · rw [hsub, SubSeq_length r.Seq _ _ (by omega) (by omega) (by omega)]
    omega

/-- C18 (amended): with `winSize`, `winStride`, `chunkSize` at least 1,
`winStride` an `int` and, for every record, the sum of its length and
`winSize + (chunkSize-1)*winStride` below `2^63`, for every window `s` of every
chunk `ChunkGenome` sends: the clip `MinInt(BpStart+s+wSize-1, BpEnd)` is
`BpStart+s+winSize-1`; the call `chunk.Seq.SubSeq(s+1, s+wSize)` is within the
bases of the chunk and yields the `winSize` bases of the record at the positions
`BpStart+s .. BpStart+s+winSize-1`; the body of `ConsumeChunks` for this window
is the body run with that end and these bases; and in every table built from
the chunks the `start` and `end` cells of row `i` are the texts of
`BpStart+Starts[i]` and `BpStart+Starts[i]+winSize-1`. -/
theorem window_is_record_slice (records : List Record) (ws st cs : Int)
    (hw : 1 ≤ ws) (hs : 1 ≤ st) (hc : 1 ≤ cs) (hst2 : st < 2 ^ 63)
    (hr : ∀ r ∈ records, (r.Seq.length : Int) + (ws + (cs - 1) * st) < 2 ^ 63) :
    (∃ fuel chunks, ChunkGenome fuel records ws st cs = .ok chunks) ∧
    ∀ fuel chunks, ChunkGenome fuel records ws st cs = .ok chunks →
      (∀ c ∈ chunks, ∃ r ∈ records, c.ID = r.ID ∧ ∀ s ∈ c.Starts,
        MinInt (c.BpStart + s + c.wSize - 1) c.BpEnd = c.BpStart + s + ws - 1 ∧
        (1 ≤ s + 1 ∧ s + c.wSize ≤ (c.Seq.length : Int)) ∧
        (1 ≤ c.BpStart + s ∧ c.BpStart + s + ws - 1 ≤ (r.Seq.length : Int)) ∧
        SubSeq c.Seq (s + 1) (s + c.wSize) =
          SubSeq r.Seq (c.BpStart + s) (c.BpStart + s + ws - 1) ∧
        ((SubSeq c.Seq (s + 1) (s + c.wSize)).length : Int) = ws ∧
        ∀ (E : Externals) (mc : List (Nat × String)) (kc : List (Nat × Int)) (dm : String)
          (row : List String),
          ConsumeChunks.window E mc kc dm c row s =
            (ConsumeChunks.metricLoop E
              (SubSeq r.Seq (c.BpStart + s) (c.BpStart + s + ws - 1)) mc
              (((row.set 0 c.ID).set 1 (toString (c.BpStart + s))).set 2
                (toString (c.BpStart + s + ws - 1)))).bind fun row2 =>
              .ok (ConsumeChunks.kmerLoop E dm
                (SubSeq r.Seq (c.BpStart + s) (c.BpStart + s + ws - 1)) kc row2)) ∧
      ∀ (E : Externals) (metrics : List String) (dm : String) (tables : List ChunkResult),
        ConsumeChunks E chunks metrics dm = .ok tables →
        List.Forall₂ (fun (c : Chunk) (t : ChunkResult) =>
          t.Data.map (fun row => (row[1]?, row[2]?)) =
            c.Starts.map (fun s => (some (toString (c.BpStart + s)),
              some (toString (c.BpStart + s + ws - 1))))) chunks tables := by
  refine ⟨ChunkGenome_returns records ws st cs hw hs hc hst2 hr, ?_⟩
  intro fuel chunks h
  have hwin : ∀ c ∈ chunks, ∃ r ∈ records, c.ID = r.ID ∧
      (c.wSize = ws ∧ 1 ≤ c.BpStart ∧ c.BpEnd + 1 < 2 ^ 63) ∧
      ∀ s ∈ c.Starts, (0 ≤ s ∧ c.BpStart + s + ws - 1 ≤ c.BpEnd) ∧
      MinInt (c.BpStart + s + c.wSize - 1) c.BpEnd = c.BpStart + s + ws - 1 ∧
      (1 ≤ s + 1 ∧ s + c.wSize ≤ (c.Seq.length : Int)) ∧
      (1 ≤ c.BpStart + s ∧ c.BpStart + s + ws - 1 ≤ (r.Seq.length : Int)) ∧
      SubSeq c.Seq (s + 1) (s + c.wSize) =
        SubSeq r.Seq (c.BpStart + s) (c.BpStart + s + ws - 1) ∧
      ((SubSeq c.Seq (s + 1) (s + c.wSize)).length : Int) = ws := by
    intro c hcm
    obtain ⟨r, hrm, g, hg, hcg⟩ := ChunkGenome_mem_record h c hcm
    exact ⟨r, hrm, ChunkGenome.record_window hw hs hc hst2 (hr r hrm) hg c hcg⟩
  constructor
  · intro c hcm
    obtain ⟨r, hrm, hid, ⟨hwsz, hB, hE⟩, hall⟩ := hwin c hcm
    refine ⟨r, hrm, hid, ?_⟩
    intro s hsm
    obtain ⟨⟨hs0, hfit⟩, hmin, hin, hin2, hsub, hlen⟩ := hall s hsm
    refine ⟨hmin, hin, hin2, hsub, hlen, ?_⟩
    intro E mc kc dm row
    obtain ⟨w1, w2, w3, w4⟩ := @ConsumeChunks.window_no_wrap c.BpStart c.BpEnd s c.wSize hB hs0
      (by omega) (by omega) hE
    simp only [ConsumeChunks.window]
    rw [w2, w1, w3, w4, hmin, hsub]
  · intro E metrics dm tables ht
    refine forall₂_imp_of_mem (ConsumeChunks_cells ht) ?_
    intro c hcm t hct
    obtain ⟨r, _, _, ⟨hwsz, hB, hE⟩, hall⟩ := hwin c hcm
    have := congrArg
      (List.map fun x : Option String × Option String × Option String => (x.2.1, x.2.2)) hct
    have h2 : t.Data.map (fun row => (row[1]?, row[2]?)) =
        c.Starts.map (fun s => (some (toString (wrap (c.BpStart + s))),
          some (toString (MinInt (wrap (wrap (wrap (c.BpStart + s) + c.wSize) - 1))
            c.BpEnd)))) := by
      simpa only [List.map_map, Function.comp] using this
    rw [h2]
    apply List.map_congr_left
    intro s hsm
    obtain ⟨⟨hs0, hfit⟩, hmin, _⟩ := hall s hsm
    obtain ⟨w1, w2, _, _⟩ := @ConsumeChunks.window_no_wrap c.BpStart c.BpEnd s c.wSize hB hs0
      (by omega) (by omega) hE
    rw [w2, w1, hmin]

/-- C18, at a record of 100 bases with windows of 10 bases, stride 5 and chunks
of 3 windows. -/
theorem window_is_record_slice_witness :
    ((1 : Int) ≤ 10 ∧ (1 : Int) ≤ 5 ∧ (1 : Int) ≤ 3 ∧ (5 : Int) < 2 ^ 63 ∧
      ∀ r ∈ [polyA 100], (r.Seq.length : Int) + (10 + (3 - 1) * 5) < 2 ^ 63) ∧
    (∃ fuel chunks, ChunkGenome fuel [polyA 100] 10 5 3 = .ok chunks) ∧
    ∀ fuel chunks, ChunkGenome fuel [polyA 100] 10 5 3 = .ok chunks →
      ∀ (E : Externals) (metrics : List String) (dm : String) (tables : List ChunkResult),
        ConsumeChunks E chunks metrics dm = .ok tables →
        List.Forall₂ (fun (c : Chunk) (t : ChunkResult) =>
          t.Data.map (fun row => (row[1]?, row[2]?)) =
            c.Starts.map (fun s => (some (toString (c.BpStart + s)),
              some (toString (c.BpStart + s + 10 - 1))))) chunks tables :=
  ⟨by decide,
    (window_is_record_slice [polyA 100] 10 5 3 (by decide) (by decide) (by decide)
      (by decide) (by decide)).1,
    fun fuel chunks h =>
      ((window_is_record_slice [polyA 100] 10 5 3 (by decide) (by decide) (by decide)
        (by decide) (by decide)).2 fuel chunks h).2⟩

set_option maxRecDepth 100000 in
/-- C18 (counterexample): on a record of 5 bases with `winSize = 3`,
`winStride = 2^63 - 1` and `chunkSize = 4`, where `chunkLen` wraps to `-2^63`,
the first chunk sent is `[1, -2^63]` with `Starts = [0]`. For its window the
`end` that `ConsumeChunks` computes is `MinInt(3, -2^63) = -2^63`, not
`start + winSize - 1 = 3`: the clip against `BpEnd` takes effect. -/
theorem clip_takes_effect_on_wrapped_chunkLen :
    (ChunkGenome.recordSent 1 (polyA 5) 3 9223372036854775807 4).map
      (fun c => c.Starts.map fun s =>
        (wrap (c.BpStart + s), wrap (c.BpStart + s) + c.wSize - 1,
          MinInt (wrap (wrap (wrap (c.BpStart + s) + c.wSize) - 1)) c.BpEnd)) =
      [[(1, 3, -9223372036854775808)]] := by
  decide

/-! ## Counting canonical k-mers -/

theorem lookup_incrKey (prof : List (Nat × ℚ)) (key k : Nat) :
    ((incrKey prof key).lookup k).getD 0 =
      (prof.lookup k).getD 0 + if key = k then 1 else 0 := by
  induction prof with
  | nil =>
    simp only [incrKey, List.lookup_cons, List.lookup_nil]
    by_cases h : key = k
    · subst h
      simp
    · have h2 : (k == key) = false := by simpa using fun h3 => h h3.symm
      simp [h, h2]
  | cons kv rest ih =>
    obtain ⟨k0, v⟩ := kv
    simp only [incrKey]
    by_cases h0 : k0 = key
    · subst h0
      rw [if_pos rfl]
      simp only [List.lookup_cons]
      by_cases h : k0 = k
      · subst h
        simp
      · have h2 : (k == k0) = false := by simpa using fun h3 => h h3.symm
        simp [h, h2]
    · rw [if_neg h0]
      simp only [List.lookup_cons]
      by_cases h : k = k0
      · subst h
        have h3 : ¬ key = k := fun h4 => h0 h4.symm
        simp [h3]
      · have h2 : (k == k0) = false := by simpa using h
        simp only [h2]
        exact ih

theorem lookup_foldl_incrKey (ks : List Nat) :
    ∀ (prof : List (Nat × ℚ)) (k : Nat),
      ((ks.foldl incrKey prof).lookup k).getD 0 = (prof.lookup k).getD 0 + (ks.count k : ℚ) := by
  induction ks with
  | nil => intro prof k; simp
  | cons key rest ih =>
    intro prof k
    rw [List.foldl_cons, ih, lookup_incrKey, List.count_cons]
    by_cases h : key = k
    · subst h
      simp
      ring
    · have h2 : (key == k) = false := by simpa using h
      simp [h, h2]

theorem RevComp_RevComp (kmer : List Base) : RevComp (RevComp kmer) = kmer := by
  have hc : ∀ b : Base, b.complement.complement = b := by
    intro b
    cases b <;> rfl
  have hm : List.map (Base.complement ∘ Base.complement) kmer = kmer := by
    induction kmer with
    | nil => rfl
    | cons b rest ih => simp [hc, ih]
  simp [RevComp, List.map_reverse, hm]

theorem canonicalKey_RevComp (kmer : List Base) :
    canonicalKey (RevComp kmer) = canonicalKey kmer := by
  simp only [canonicalKey, RevComp_RevComp]
  exact min_comm _ _

theorem GetSeqKmers_get (p : KmerProfile) (S : List Base) (key : Nat) (h : p.K ≤ S.length) :
    (GetSeqKmers p S).get key = p.get key +
      (((List.range (S.length - p.K + 1)).map
        fun i => canonicalKey ((S.drop i).take p.K)).count key : ℚ) := by
  have hn : ¬ S.length < p.K := by omega
  simp only [GetSeqKmers, if_neg hn, KmerProfile.get]
  rw [← lookup_foldl_incrKey, List.foldl_map]

/-! ## Normalization -/

theorem sum_incrKey (prof : List (Nat × ℚ)) (key : Nat) :
    ((incrKey prof key).map Prod.snd).sum = (prof.map Prod.snd).sum + 1 := by
  induction prof with
  | nil => simp [incrKey]
  | cons kv rest ih =>
    obtain ⟨k0, v⟩ := kv
    simp only [incrKey]
    split
    · simp
      ring
    · simp only [List.map_cons, List.sum_cons, ih]
      ring

theorem sum_foldl_incrKey (ks : List Nat) :
    ∀ prof : List (Nat × ℚ),
      ((ks.foldl incrKey prof).map Prod.snd).sum = (prof.map Prod.snd).sum + (ks.length : ℚ) := by
  induction ks with
  | nil => intro prof; simp
  | cons key rest ih =>
    intro prof
    rw [List.foldl_cons, ih, sum_incrKey]
    simp
    ring

theorem GetSeqKmers_sum (p : KmerProfile) (S : List Base) :
    ((GetSeqKmers p S).Profile.map Prod.snd).sum =
      (p.Profile.map Prod.snd).sum + if S.length < p.K then 0 else ((S.length - p.K + 1 : Nat) : ℚ) := by
  unfold GetSeqKmers
  split
  · simp
  · simp only
    rw [← List.foldl_map (fun i => canonicalKey ((S.drop i).take p.K)) incrKey,
      sum_foldl_incrKey]
    simp

theorem CountsToFreqs_sum (p : KmerProfile) (h : (p.Profile.map Prod.snd).sum ≠ 0) :
    ((CountsToFreqs p).Profile.map Prod.snd).sum = 1 := by
  simp only [CountsToFreqs, if_neg h, List.map_map]
  have hdiv : (Prod.snd ∘ fun kv : Nat × ℚ => (kv.1, kv.2 / (p.Profile.map Prod.snd).sum)) =
      fun kv => kv.2 * ((p.Profile.map Prod.snd).sum)⁻¹ := by
    funext kv
    simp only [Function.comp, div_eq_mul_inv]
  rw [hdiv, List.sum_map_mul_right]
  exact mul_inv_cancel₀ h

theorem CountsToFreqs_keys (p : KmerProfile) : (CountsToFreqs p).keys = p.keys := by
  unfold CountsToFreqs KmerProfile.keys
  split
  · rfl
  · simp [List.map_map, Function.comp]

theorem CountsToFreqs_K (p : KmerProfile) : (CountsToFreqs p).K = p.K := by
  unfold CountsToFreqs
  split <;> rfl

theorem GetSeqKmers_K (p : KmerProfile) (S : List Base) : (GetSeqKmers p S).K = p.K := by
  unfold GetSeqKmers
  split <;> rfl

theorem foldl_GetSeqKmers_sum (k : Nat) (records : List (List Base)) :
    ∀ p : KmerProfile, p.K = k →
      (records.foldl GetSeqKmers p).K = k ∧
      (((records.foldl GetSeqKmers p).Profile.map Prod.snd).sum =
        (p.Profile.map Prod.snd).sum +
          (records.map fun S : List Base =>
            if S.length < k then (0 : ℚ) else ((S.length - k + 1 : Nat) : ℚ)).sum) := by
  induction records with
  | nil => intro p hp; simp [hp]
  | cons S rest ih =>
    intro p hp
    obtain ⟨h1, h2⟩ := ih (GetSeqKmers p S) (by rw [GetSeqKmers_K, hp])
    refine ⟨h1, ?_⟩
    rw [List.foldl_cons, h2, GetSeqKmers_sum, hp, List.map_cons, List.sum_cons]
    ring

theorem foldl_GetSeqKmers_short (k : Nat) (records : List (List Base))
    (hshort : ∀ S ∈ records, S.length < k) :
    ∀ p : KmerProfile, p.K = k → records.foldl GetSeqKmers p = p := by
  induction records with
  | nil => intro p _; rfl
  | cons S rest ih =>
    intro p hp
    have hS : GetSeqKmers p S = p := by
      simp [GetSeqKmers, hp, hshort S (List.mem_cons_self _ _)]
    rw [List.foldl_cons, hS]
    exact ih (fun T hT => hshort T (List.mem_cons_of_mem _ hT)) p hp

/-- C15: when the values of a profile have a non-zero total, `CountsToFreqs`
replaces every value by the value divided by that total, the values then sum
to 1, and keys and `K` are as before; an empty profile stays empty; for `CCTA`
and k = 3 both keys get 1/2; and `FastaToKmers`, which normalizes once after
all records are counted, returns values of sum 1 when some record has at least
k bases and the empty profile otherwise. -/
theorem CountsToFreqs_normalizes (p : KmerProfile) :
    ((p.Profile.map Prod.snd).sum ≠ 0 →
      (CountsToFreqs p).Profile =
        p.Profile.map (fun kv => (kv.1, kv.2 / (p.Profile.map Prod.snd).sum)) ∧
      ((CountsToFreqs p).Profile.map Prod.snd).sum = 1 ∧
      (CountsToFreqs p).keys = p.keys ∧ (CountsToFreqs p).K = p.K) ∧
    (p.Profile = [] → (CountsToFreqs p).Profile = []) ∧
    (CountsToFreqs (GetSeqKmers (NewKmerProfile 3) [.C, .C, .T, .A])).Profile =
      [(Encode [.A, .G, .G], 1 / 2), (Encode [.C, .T, .A], 1 / 2)] ∧
    ∀ (records : List (List Base)) (k : Nat),
      ((∃ S ∈ records, k ≤ S.length) →
        ((FastaToKmers records k).Profile.map Prod.snd).sum = 1) ∧
      ((∀ S ∈ records, S.length < k) → (FastaToKmers records k).Profile = []) := by
  refine ⟨?_, ?_, by decide!, ?_⟩
  · intro h
    exact ⟨by simp only [CountsToFreqs, if_neg h], CountsToFreqs_sum p h, CountsToFreqs_keys p,
      CountsToFreqs_K p⟩
  · intro h
    simp [CountsToFreqs, h]
  · intro records k
    constructor
    · rintro ⟨S, hS, hk⟩
      apply CountsToFreqs_sum
      rw [(foldl_GetSeqKmers_sum k records { K := k, Profile := [] } rfl).2]
      have hnn : ∀ x ∈ records.map (fun S : List Base =>
          if S.length < k then (0 : ℚ) else ((S.length - k + 1 : Nat) : ℚ)), 0 ≤ x := by
        intro x hx
        obtain ⟨T, _, rfl⟩ := List.mem_map.1 hx
        split
        · exact le_refl _
        · exact Nat.cast_nonneg _
      have hmem : ((S.length - k + 1 : Nat) : ℚ) ∈ records.map (fun S : List Base =>
          if S.length < k then (0 : ℚ) else ((S.length - k + 1 : Nat) : ℚ)) := by
        refine List.mem_map.2 ⟨S, hS, ?_⟩
        rw [if_neg (by omega)]
      have hle := List.single_le_sum hnn _ hmem
      have hpos : (1 : ℚ) ≤ ((S.length - k + 1 : Nat) : ℚ) := by
        exact_mod_cast Nat.le_add_left 1 (S.length - k)
      simp only [List.map_nil, List.sum_nil, zero_add]
      intro hzero
      rw [hzero] at hle
      linarith
    · intro hshort
      have hfold : records.foldl GetSeqKmers { K := k, Profile := [] } =
          { K := k, Profile := [] } :=
        foldl_GetSeqKmers_short k records hshort { K := k, Profile := [] } rfl
      simp [FastaToKmers, hfold, CountsToFreqs]

/-- C15, at the counts of `CCTA` for k = 3, whose total is 2. -/
theorem CountsToFreqs_normalizes_witness :
    ((CountsToFreqs (GetSeqKmers (NewKmerProfile 3) [.C, .C, .T, .A])).Profile.map
      Prod.snd).sum = 1 ∧
    (CountsToFreqs (NewKmerProfile 3)).Profile = [] :=
  ⟨((CountsToFreqs_normalizes (GetSeqKmers (NewKmerProfile 3) [.C, .C, .T, .A])).1
      (by decide!)).2.1,
    (CountsToFreqs_normalizes (NewKmerProfile 3)).2.1 rfl⟩

/-! ## The distance of two profiles -/

theorem KmerDist_eq_finset_sum (p q : KmerProfile) (hK : p.K = q.K) :
    KmerDist p q =
      .ok ((∑ key ∈ p.keys.toFinset ∪ q.keys.toFinset, |p.get key - q.get key|) / 2) := by
  have hset : (p.keys ++ q.keys).dedup.toFinset = p.keys.toFinset ∪ q.keys.toFinset := by
    ext a
    simp [List.mem_dedup]
  simp only [KmerDist, if_pos hK]
  rw [← hset, List.sum_toFinset _ (List.nodup_dedup _)]

theorem get_eq_zero_of_not_mem (p : KmerProfile) (key : Nat) (h : key ∉ p.keys) :
    p.get key = 0 := by
  obtain ⟨K, prof⟩ := p
  simp only [KmerProfile.get, KmerProfile.keys] at h ⊢
  induction prof with
  | nil => rfl
  | cons kv rest ih =>
    obtain ⟨k0, v⟩ := kv
    simp only [List.map_cons, List.mem_cons, not_or] at h
    have h2 : (key == k0) = false := by simpa using h.1
    simp only [List.lookup_cons, h2]
    exact ih h.2

theorem get_nonneg (p : KmerProfile) (hpos : ∀ kv ∈ p.Profile, 0 ≤ kv.2) (key : Nat) :
    0 ≤ p.get key := by
  obtain ⟨K, prof⟩ := p
  simp only [KmerProfile.get] at hpos ⊢
  induction prof with
  | nil => exact le_refl _
  | cons kv rest ih =>
    obtain ⟨k0, v⟩ := kv
    simp only [List.lookup_cons]
    cases hkey : (key == k0) with
    | true => exact hpos (k0, v) (List.mem_cons_self _ _)
    | false => exact ih fun kv hkv => hpos kv (List.mem_cons_of_mem _ hkv)

theorem sum_get_keys (p : KmerProfile) (hn : p.keys.Nodup) :
    (p.keys.map p.get).sum = (p.Profile.map Prod.snd).sum := by
  obtain ⟨K, prof⟩ := p
  simp only [KmerProfile.keys] at hn ⊢
  have hfun : KmerProfile.get { K := K, Profile := prof } =
      fun key => (prof.lookup key).getD 0 := rfl
  rw [hfun]
  clear hfun
  induction prof with
  | nil => rfl
  | cons kv rest ih =>
    obtain ⟨k0, v⟩ := kv
    simp only [List.map_cons, List.nodup_cons] at hn
    have hrest : (rest.map Prod.fst).map
          (fun key => (List.lookup key ((k0, v) :: rest)).getD 0) =
        (rest.map Prod.fst).map (fun key => (List.lookup key rest).getD 0) := by
      apply List.map_congr_left
      intro key hkey
      have hne : (key == k0) = false := by
        have : key ≠ k0 := fun heq => hn.1 (heq ▸ hkey)
        simpa using this
      simp only [List.lookup_cons, hne]
    simp only [List.map_cons, List.sum_cons, hrest, ih hn.2]
    simp [List.lookup_cons]

theorem sum_get_union (p : KmerProfile) (hn : p.keys.Nodup) (u : Finset Nat)
    (hsub : p.keys.toFinset ⊆ u) : ∑ key ∈ u, p.get key = (p.Profile.map Prod.snd).sum := by
  rw [← Finset.sum_subset hsub, List.sum_toFinset _ hn, sum_get_keys p hn]
  intro x _ hx
  exact get_eq_zero_of_not_mem p x (by simpa using hx)

/-- The distance of two profiles with distinct keys and non-negative values of
sum 1 lies between 0 and 1. -/
theorem KmerDist_bounds (p q : KmerProfile) (hK : p.K = q.K)
    (hpn : p.keys.Nodup) (hqn : q.keys.Nodup)
    (hp0 : ∀ kv ∈ p.Profile, 0 ≤ kv.2) (hq0 : ∀ kv ∈ q.Profile, 0 ≤ kv.2)
    (hp1 : (p.Profile.map Prod.snd).sum = 1) (hq1 : (q.Profile.map Prod.snd).sum = 1) :
    ∃ d, KmerDist p q = .ok d ∧ 0 ≤ d ∧ d ≤ 1 := by
  refine ⟨_, KmerDist_eq_finset_sum p q hK, ?_, ?_⟩
  · exact div_nonneg (Finset.sum_nonneg fun key _ => abs_nonneg _) (by norm_num)
  · have hle : ∑ key ∈ p.keys.toFinset ∪ q.keys.toFinset, |p.get key - q.get key| ≤
        ∑ key ∈ p.keys.toFinset ∪ q.keys.toFinset, (p.get key + q.get key) := by
      apply Finset.sum_le_sum
      intro key _
      have h1 := get_nonneg p hp0 key
      have h2 := get_nonneg q hq0 key
      rw [abs_le]
      constructor <;> linarith
    rw [Finset.sum_add_distrib, sum_get_union p hpn _ Finset.subset_union_left,
      sum_get_union q hqn _ Finset.subset_union_right, hp1, hq1] at hle
    linarith

theorem mem_keys_incrKey (prof : List (Nat × ℚ)) (key k : Nat)
    (h : k ∈ (incrKey prof key).map Prod.fst) : k ∈ prof.map Prod.fst ∨ k = key := by
  induction prof with
  | nil =>
    simp only [incrKey, List.map_cons, List.map_nil, List.mem_singleton] at h
    exact Or.inr h
  | cons kv rest ih =>
    obtain ⟨k0, v⟩ := kv
    simp only [incrKey] at h
    split at h
    · exact Or.inl (by simpa using h)
    · simp only [List.map_cons, List.mem_cons] at h ⊢
      rcases h with h | h
      · exact Or.inl (Or.inl h)
      · rcases ih h with h2 | h2
        · exact Or.inl (Or.inr h2)
        · exact Or.inr h2

theorem incrKey_invariant (prof : List (Nat × ℚ)) (key : Nat)
    (hn : (prof.map Prod.fst).Nodup) (h0 : ∀ kv ∈ prof, 0 ≤ kv.2) :
    ((incrKey prof key).map Prod.fst).Nodup ∧ ∀ kv ∈ incrKey prof key, 0 ≤ kv.2 := by
  induction prof with
  | nil =>
    simp only [incrKey, List.map_cons, List.map_nil, List.nodup_cons, List.not_mem_nil,
      not_false_eq_true, List.nodup_nil, and_self, List.mem_singleton, true_and]
    rintro kv rfl
    norm_num
  | cons kv rest ih =>
    obtain ⟨k0, v⟩ := kv
    simp only [List.map_cons, List.nodup_cons] at hn
    have hv : 0 ≤ v := h0 (k0, v) (List.mem_cons_self _ _)
    obtain ⟨ih1, ih2⟩ := ih hn.2 fun kv hkv => h0 kv (List.mem_cons_of_mem _ hkv)
    simp only [incrKey]
    split
    · refine ⟨by simpa using hn, ?_⟩
      intro kv hkv
      rcases List.mem_cons.1 hkv with rfl | hkv
      · simp only
        linarith
      · exact h0 kv (List.mem_cons_of_mem _ hkv)
    · next hne =>
      refine ⟨?_, ?_⟩
      · simp only [List.map_cons, List.nodup_cons]
        refine ⟨fun hmem => ?_, ih1⟩
        rcases mem_keys_incrKey rest key k0 hmem with h2 | h2
        · exact hn.1 h2
        · exact hne h2
      · intro kv hkv
        rcases List.mem_cons.1 hkv with rfl | hkv
        · exact hv
        · exact ih2 kv hkv

theorem foldl_incrKey_invariant (ks : List Nat) :
    ∀ prof : List (Nat × ℚ), (prof.map Prod.fst).Nodup → (∀ kv ∈ prof, 0 ≤ kv.2) →
      ((ks.foldl incrKey prof).map Prod.fst).Nodup ∧ ∀ kv ∈ ks.foldl incrKey prof, 0 ≤ kv.2 := by
  induction ks with
  | nil => intro prof hn h0; exact ⟨hn, h0⟩
  | cons key rest ih =>
    intro prof hn h0
    obtain ⟨h1, h2⟩ := incrKey_invariant prof key hn h0
    exact ih _ h1 h2

/-- The normalized profile of a sequence with at least k bases: distinct keys,
non-negative values, sum 1. -/
theorem seqProfile_normalized (k : Nat) (S : List Base) (h : k ≤ S.length) :
    (seqProfile k S).K = k ∧ (seqProfile k S).keys.Nodup ∧
      (∀ kv ∈ (seqProfile k S).Profile, 0 ≤ kv.2) ∧
      ((seqProfile k S).Profile.map Prod.snd).sum = 1 := by
  have hn : ¬ S.length < k := by omega
  have hsum : ((GetSeqKmers (NewKmerProfile k) S).Profile.map Prod.snd).sum =
      ((S.length - k + 1 : Nat) : ℚ) := by
    rw [GetSeqKmers_sum]
    simp [NewKmerProfile, hn]
  have hpos : (0 : ℚ) < ((S.length - k + 1 : Nat) : ℚ) := by
    exact_mod_cast Nat.succ_pos _
  have hinv : ((GetSeqKmers (NewKmerProfile k) S).Profile.map Prod.fst).Nodup ∧
      ∀ kv ∈ (GetSeqKmers (NewKmerProfile k) S).Profile, 0 ≤ kv.2 := by
    simp only [GetSeqKmers, NewKmerProfile, if_neg hn]
    rw [← List.foldl_map (fun i => canonicalKey ((S.drop i).take k)) incrKey]
    exact foldl_incrKey_invariant _ [] List.nodup_nil (by simp)
  refine ⟨by rw [seqProfile, CountsToFreqs_K, GetSeqKmers_K]; rfl, ?_, ?_, ?_⟩
  · rw [seqProfile, CountsToFreqs_keys]
    exact hinv.1
  · intro kv hkv
    have hne : ((GetSeqKmers (NewKmerProfile k) S).Profile.map Prod.snd).sum ≠ 0 := by
      rw [hsum]
      exact ne_of_gt hpos
    simp only [seqProfile, CountsToFreqs, if_neg hne, List.mem_map] at hkv
    obtain ⟨kv0, hkv0, rfl⟩ := hkv
    simp only
    rw [hsum]
    exact div_nonneg (hinv.2 kv0 hkv0) (le_of_lt hpos)
  · apply CountsToFreqs_sum
    rw [hsum]
    exact ne_of_gt hpos

/-- C13: for two profiles with the same `K`, `KmerDist` is half the sum, over
the union of the keys of both, of the absolute difference of the two values
read with 0 for an absent key; for the normalized profiles of `CCTA` and
`CCTAAA` at k = 3 it is 1/2. -/
theorem KmerDist_total_variation (p q : KmerProfile) (hK : p.K = q.K) :
    KmerDist p q =
      .ok ((∑ key ∈ p.keys.toFinset ∪ q.keys.toFinset, |p.get key - q.get key|) / 2) ∧
    KmerDist (seqProfile 3 [.C, .C, .T, .A]) (seqProfile 3 [.C, .C, .T, .A, .A, .A]) =
      .ok (1 / 2) :=
  ⟨KmerDist_eq_finset_sum p q hK, by decide!⟩

/-- C13, at the normalized profiles of `CCTA` and `CCTAAA` for k = 3. -/
theorem KmerDist_total_variation_witness :
    (seqProfile 3 [.C, .C, .T, .A]).K = (seqProfile 3 [.C, .C, .T, .A, .A, .A]).K ∧
    KmerDist (seqProfile 3 [.C, .C, .T, .A]) (seqProfile 3 [.C, .C, .T, .A, .A, .A]) =
      .ok ((∑ key ∈ (seqProfile 3 [.C, .C, .T, .A]).keys.toFinset ∪
          (seqProfile 3 [.C, .C, .T, .A, .A, .A]).keys.toFinset,
        |(seqProfile 3 [.C, .C, .T, .A]).get key -
          (seqProfile 3 [.C, .C, .T, .A, .A, .A]).get key|) / 2) :=
  ⟨by decide!, (KmerDist_total_variation (seqProfile 3 [.C, .C, .T, .A])
    (seqProfile 3 [.C, .C, .T, .A, .A, .A]) (by decide!)).1⟩

/-- C14: for sequences `S` and `T` with at least k bases and their normalized
profiles, `KmerDist` gives the same value in both orders, a value between 0
and 1, and 0 for a sequence and itself. -/
theorem KmerDist_symmetric_bounded (k : Nat) (S T : List Base)
    (hS : k ≤ S.length) (hT : k ≤ T.length) :
    KmerDist (seqProfile k S) (seqProfile k T) = KmerDist (seqProfile k T) (seqProfile k S) ∧
    (∃ d, KmerDist (seqProfile k S) (seqProfile k T) = .ok d ∧ 0 ≤ d ∧ d ≤ 1) ∧
    KmerDist (seqProfile k S) (seqProfile k S) = .ok 0 := by
  obtain ⟨hSK, hSn, hS0, hS1⟩ := seqProfile_normalized k S hS
  obtain ⟨hTK, hTn, hT0, hT1⟩ := seqProfile_normalized k T hT
  have hK : (seqProfile k S).K = (seqProfile k T).K := by rw [hSK, hTK]
  refine ⟨?_, KmerDist_bounds _ _ hK hSn hTn hS0 hT0 hS1 hT1, ?_⟩
  · rw [KmerDist_eq_finset_sum _ _ hK, KmerDist_eq_finset_sum _ _ hK.symm, Finset.union_comm]
    congr 2
    apply Finset.sum_congr rfl
    intro key _
    exact abs_sub_comm _ _
  · rw [KmerDist_eq_finset_sum _ _ rfl]
    simp

/-- C14, at `CCTA` and `CCTAAA` for k = 3. -/
theorem KmerDist_symmetric_bounded_witness :
    (3 ≤ [Base.C, .C, .T, .A].length ∧ 3 ≤ [Base.C, .C, .T, .A, .A, .A].length) ∧
    KmerDist (seqProfile 3 [.C, .C, .T, .A]) (seqProfile 3 [.C, .C, .T, .A, .A, .A]) =
      KmerDist (seqProfile 3 [.C, .C, .T, .A, .A, .A]) (seqProfile 3 [.C, .C, .T, .A]) ∧
    (∃ d, KmerDist (seqProfile 3 [.C, .C, .T, .A]) (seqProfile 3 [.C, .C, .T, .A, .A, .A]) =
      .ok d ∧ 0 ≤ d ∧ d ≤ 1) ∧
    KmerDist (seqProfile 3 [.C, .C, .T, .A]) (seqProfile 3 [.C, .C, .T, .A]) = .ok 0 :=
  ⟨by decide, KmerDist_symmetric_bounded 3 [.C, .C, .T, .A] [.C, .C, .T, .A, .A, .A]
    (by decide) (by decide)⟩

end Dnaglider
